import Mathlib

/-!
# chat_demo: the hub and its clients

A shallow embedding of `internal/hub.go` and `internal/client.go`.

* A Go channel `chan []byte` is a `Chan`: its capacity, the buffered messages
  (head = oldest) and whether `close` has been called on it.
* A `*Client` is a pointer, here a `Nat`; the memory the pointers point into
  is the `heap` of a `Hub`.
* The map `clients map[int64]*Client` is a list of (uid, pointer) entries; the
  order in which a `range` statement visits the keys is chosen by the Go
  runtime and is an explicit argument of the two loops that range over it.
* A Go panic and a goroutine blocked for ever are outcomes of their own.
-/

namespace ChatDemo

/-- A message, `[]byte`. -/
abbrev Message := List Nat

/-- A point in time, `time.Time`, in nanoseconds. -/
abbrev Time := Int

/-- Run-time panics of the Go channel operations. -/
inductive Panic where
  | closeOfClosedChannel
  | sendOnClosedChannel
  deriving DecidableEq, Repr

/-- What becomes of a piece of Go code: it completes with a value, it panics,
or it blocks on a channel operation nobody completes. -/
inductive Outcome (α : Type) where
  | ok (a : α)
  | panic (p : Panic)
  | blocked
  deriving Repr

/-! ## Channels -/

/-- A buffered channel `chan []byte`. -/
structure Chan where
  cap : Nat
  buf : List Message
  closed : Bool
  deriving DecidableEq, Repr

namespace Chan

/-- The channel `make(chan []byte, n)`. -/
def make (n : Nat) : Chan := { cap := n, buf := [], closed := false }

/-- The statement `close(ch)`: closing a closed channel panics. -/
def close (ch : Chan) : Outcome Chan :=
  if ch.closed then .panic .closeOfClosedChannel
  else .ok { ch with closed := true }

/-- The statement `select { case ch <- m: default: }`. The result `some` is
the channel after the send, `none` says the default branch was taken. A send
on a closed channel panics, also inside a select. -/
def trySend (ch : Chan) (m : Message) : Outcome (Option Chan) :=
  if ch.closed then .panic .sendOnClosedChannel
  else if ch.buf.length < ch.cap then .ok (some { ch with buf := ch.buf ++ [m] })
  else .ok none

/-- The statement `ch <- m`: it blocks while the buffer is full. -/
def send (ch : Chan) (m : Message) : Outcome Chan :=
  if ch.closed then .panic .sendOnClosedChannel
  else if ch.buf.length < ch.cap then .ok { ch with buf := ch.buf ++ [m] }
  else .blocked

/-- What the expression `m, ok := <-ch` yields: a message and the channel
that remains (`ok` true), the zero message of a closed and drained channel
(`ok` false), or nothing yet (the receive blocks on an open empty channel). -/
inductive Recv where
  | message (m : Message) (rest : Chan)
  | closed
  | blocks
  deriving DecidableEq, Repr

/-- The expression `m, ok := <-ch`. -/
def recv (ch : Chan) : Recv :=
  match ch.buf with
  | m :: rest => .message m { ch with buf := rest }
  | [] => if ch.closed then .closed else .blocks

end Chan

/-! ## Connections -/

/-- The frame types of `github.com/coder/websocket`. -/
inductive MessageType where
  | text
  | binary
  deriving DecidableEq, Repr

/-- The status code `websocket.StatusNormalClosure`. -/
def StatusNormalClosure : Nat := 1000

/-- What the peer of a `*websocket.Conn` has seen of it: the frames written
to it, the number of `Write` calls made on it, the number of `Ping` calls made
on it, and the code and reason of the `Close` call, if any. -/
structure Conn where
  wire : List (MessageType × Message)
  writes : Nat
  pings : Nat
  closeFrame : Option (Nat × String)
  deriving DecidableEq, Repr

/-- A connection just accepted. -/
def Conn.accept : Conn := { wire := [], writes := 0, pings := 0, closeFrame := none }

/-! ## Clients and the hub -/

/-- The constant `bufSize` of client.go. -/
def bufSize : Nat := 256

/-- The struct `Client`, without its back pointer to the hub. -/
structure Client where
  conn : Conn
  uid : Int
  lastCommTime : Time
  send : Chan
  deriving DecidableEq, Repr

/-- The client that `ServeWs` builds for the form value `uid`: the zero
`lastCommTime` and a fresh send channel of capacity `bufSize`. -/
def ServeWs (uid : Int) : Client :=
  { conn := Conn.accept, uid := uid, lastCommTime := 0, send := Chan.make bufSize }

/-- The map type `map[int64]*Client`. -/
abbrev Clients := List (Int × Nat)

namespace Clients

/-- The expression `clients[uid]` with its `ok`. -/
def get : Clients → Int → Option Nat
  | [], _ => none
  | (k, c) :: rest, uid => if k = uid then some c else get rest uid

/-- The statement `delete(clients, uid)`. -/
def delete (m : Clients) (uid : Int) : Clients :=
  m.filter (fun e => decide (e.1 ≠ uid))

/-- The statement `clients[uid] = client`. -/
def set (m : Clients) (uid : Int) (client : Nat) : Clients :=
  (uid, client) :: delete m uid

/-- The keys of the map. -/
def keys (m : Clients) : List Int := m.map Prod.fst

end Clients

/-- The struct `Hub`: the map `clients`, and the memory its pointers point
into. The three channels `broadcast`, `register` and `unregister` are
unbuffered: what is sent on them is what `Run` receives, one at a time. -/
structure Hub where
  clients : Clients
  heap : Nat → Client

namespace Hub

/-- Stores `ch` as the state of the channel `client.send`. -/
def setSend (h : Hub) (client : Nat) (ch : Chan) : Hub :=
  { h with heap := fun p => if p = client then { h.heap client with send := ch } else h.heap p }

/-- The statement `client.lastCommTime = t`. -/
def setLastCommTime (h : Hub) (client : Nat) (t : Time) : Hub :=
  { h with heap := fun p =>
      if p = client then { h.heap client with lastCommTime := t } else h.heap p }

/-- Stores `conn` as the state of the connection `client.conn`. -/
def setConn (h : Hub) (client : Nat) (conn : Conn) : Hub :=
  { h with heap := fun p => if p = client then { h.heap client with conn := conn } else h.heap p }

end Hub

/-- `NewHub`, in the memory `heap`: the map of clients is empty. -/
def NewHub (heap : Nat → Client) : Hub := { clients := [], heap := heap }

namespace Hub

/-- The case `client := <-h.register` of `Run`. -/
def register (h : Hub) (client : Nat) : Hub :=
  { h with clients := h.clients.set (h.heap client).uid client }

/-- The case `client := <-h.unregister` of `Run`. -/
def unregister (h : Hub) (client : Nat) : Outcome Hub :=
  match h.clients.get (h.heap client).uid with
  | some _ =>
    let h1 : Hub := { h with clients := h.clients.delete (h.heap client).uid }
    match (h1.heap client).send.close with
    | .ok ch => .ok (h1.setSend client ch)
    | .panic p => .panic p
    | .blocked => .blocked
  | none => .ok h

/-- The loop `for uid, client := range h.clients` of the case
`message := <-h.broadcast` of `Run`, visiting the keys in the order `order`.
An entry deleted before the loop reaches it is not visited. -/
def broadcastLoop (message : Message) : List Int → Hub → Outcome Hub
  | [], h => .ok h
  | uid :: rest, h =>
    match h.clients.get uid with
    | none => broadcastLoop message rest h
    | some client =>
      match (h.heap client).send.trySend message with
      | .ok (some ch) => broadcastLoop message rest (h.setSend client ch)
      | .ok none =>
        match (h.heap client).send.close with
        | .ok ch =>
          broadcastLoop message rest
            { h.setSend client ch with clients := h.clients.delete uid }
        | .panic p => .panic p
        | .blocked => .blocked
      | .panic p => .panic p
      | .blocked => .blocked

/-- The case `message := <-h.broadcast` of `Run`; `order` is the order in
which the runtime ranges over the map. -/
def broadcast (h : Hub) (message : Message) (order : List Int) : Outcome Hub :=
  broadcastLoop message order h

/-- `SendMessage`: the hub after the call and the lines passed to
`logx.Error`. -/
def SendMessage (h : Hub) (uid : Int) (message : Message) : Outcome (Hub × List String) :=
  match h.clients.get uid with
  | some client =>
    match (h.heap client).send.send message with
    | .ok ch => .ok (h.setSend client ch, [])
    | .panic p => .panic p
    | .blocked => .blocked
  | none => .ok (h, ["not found client"])

end Hub

/-! ## The heartbeat -/

/-- The duration `time.Second`, in nanoseconds. -/
def Second : Int := 1000000000

/-- The largest and the smallest `time.Duration`. -/
def maxDuration : Int := 2 ^ 63 - 1

/-- The smallest `time.Duration`. -/
def minDuration : Int := -(2 ^ 63)

/-- `t.Sub(u)`: the duration `t - u`, saturated to the range of
`time.Duration`. -/
def Time.Sub (t u : Time) : Int :=
  if maxDuration < t - u then maxDuration
  else if t - u < minDuration then minDuration
  else t - u

/-- `conn.Ping`: one more ping has been sent on the connection. -/
def Conn.Ping (conn : Conn) : Conn := { conn with pings := conn.pings + 1 }

/-- What one tick of `heartbeat` leaves behind: the hub, the clients sent on
`h.unregister` and whether `heartbeat` has returned. -/
structure Tick where
  hub : Hub
  sent : List Nat
  returned : Bool

namespace Hub

/-- The loop `for uid := range h.clients` of one tick of `heartbeat`, at the
time `currentTime`, visiting the keys in the order `order`; `pingOk client`
says whether `client.conn.Ping(ctx)` returns a nil error. -/
def heartbeatRange (pingOk : Nat → Bool) (currentTime : Time) : List Int → Hub → Tick
  | [], h => { hub := h, sent := [], returned := false }
  | uid :: rest, h =>
    match h.clients.get uid with
    | some client =>
      if ¬ (30 * Second ≤ Time.Sub currentTime (h.heap client).lastCommTime) then
        heartbeatRange pingOk currentTime rest h
      else
        let h1 := h.setConn client (h.heap client).conn.Ping
        if pingOk client then
          heartbeatRange pingOk currentTime rest (h1.setLastCommTime client currentTime)
        else
          { hub := h1, sent := [client], returned := true }
    | none => heartbeatRange pingOk currentTime rest h

/-- The loop `for { select { case <-ticker.C: ... } }` of `heartbeat` over the
ticks `ticks`, each with its `time.Now()` and the order of its range. Once
`heartbeat` has returned, no further tick is served. -/
def heartbeat (pingOk : Nat → Bool) : List (Time × List Int) → Hub → Tick
  | [], h => { hub := h, sent := [], returned := false }
  | (currentTime, order) :: ticks, h =>
    let t := heartbeatRange pingOk currentTime order h
    if t.returned then t
    else
      let t2 := heartbeat pingOk ticks t.hub
      { t2 with sent := t.sent ++ t2.sent }

end Hub

/-! ## The write pump -/

/-- How control leaves a list of statements. -/
inductive Flow where
  | fallThrough
  | continues
  | breaks
  | returns
  deriving DecidableEq, Repr

/-- A `select` statement is the innermost statement a `break` in one of its
cases refers to: the `break` ends the select, and control falls through to
what follows the select. -/
def Flow.ofSelect : Flow → Flow
  | .breaks => .fallThrough
  | f => f

/-- `c.conn.Write(ctx, typ, message)`; `ok` says whether it returns a nil
error. A write that fails puts no frame on the wire. -/
def Conn.Write (conn : Conn) (ok : Bool) (typ : MessageType) (message : Message) : Conn :=
  if ok then { conn with wire := conn.wire ++ [(typ, message)], writes := conn.writes + 1 }
  else { conn with writes := conn.writes + 1 }

/-- `c.conn.Close(code, reason)`. -/
def Conn.Close (conn : Conn) (code : Nat) (reason : String) : Conn :=
  { conn with closeFrame := some (code, reason) }

/-- Where `writePump` is after some iterations of its loop: still in the loop
with iterations to go, blocked in the receive of its select, or returned. -/
inductive PumpStatus where
  | running
  | waiting
  | returned
  deriving DecidableEq, Repr

namespace Client

/-- The body of the case `message, ok := <-c.send` of the select of
`writePump`, for a receive that yielded `(message, ok)`. `writeOk n` says
whether the `Write` call number `n` on the connection succeeds and `now n` is
what `time.Now()` returns after it. -/
def writePumpCase (writeOk : Nat → Bool) (now : Nat → Time) (c : Client)
    (message : Message) (ok : Bool) : Client × Flow :=
  if !ok then (c, .continues)
  else
    let n := c.conn.writes
    let c1 := { c with conn := c.conn.Write (writeOk n) .binary message }
    if !(writeOk n) then (c1, .breaks)
    else ({ c1 with lastCommTime := now n }, .fallThrough)

/-- The deferred function of `writePump`. -/
def writePumpDeferred (c : Client) : Client :=
  { c with conn := c.conn.Close StatusNormalClosure "" }

/-- `writePump`, run for at most `fuel` iterations of its `for` loop. -/
def writePump (writeOk : Nat → Bool) (now : Nat → Time) : Nat → Client → Client × PumpStatus
  | 0, c => (c, .running)
  | fuel + 1, c =>
    match c.send.recv with
    | .blocks => (c, .waiting)
    | .closed =>
      let r := writePumpCase writeOk now c [] false
      match r.2.ofSelect with
      | .fallThrough => writePump writeOk now fuel r.1
      | .continues => writePump writeOk now fuel r.1
      | .breaks => (writePumpDeferred r.1, .returned)
      | .returns => (writePumpDeferred r.1, .returned)
    | .message message rest =>
      let r := writePumpCase writeOk now { c with send := rest } message true
      match r.2.ofSelect with
      | .fallThrough => writePump writeOk now fuel r.1
      | .continues => writePump writeOk now fuel r.1
      | .breaks => (writePumpDeferred r.1, .returned)
      | .returns => (writePumpDeferred r.1, .returned)

end Client

/-! ## Sequences of operations on the hub -/

/-- What the hub is asked to do: the three kinds of value `Run` receives, and
a call of `SendMessage`. A broadcast comes with the order in which the runtime
ranges over the map while serving it. -/
inductive Op where
  | register (client : Nat)
  | unregister (client : Nat)
  | broadcast (message : Message) (order : List Int)
  | sendMessage (uid : Int) (message : Message)
  deriving DecidableEq, Repr

namespace Hub

/-- One iteration of the loop of `Run`, or one call of `SendMessage`. -/
def step (h : Hub) : Op → Outcome Hub
  | .register client => .ok (h.register client)
  | .unregister client => h.unregister client
  | .broadcast message order => h.broadcast message order
  | .sendMessage uid message =>
    match h.SendMessage uid message with
    | .ok r => .ok r.1
    | .panic p => .panic p
    | .blocked => .blocked

/-- The operations `ops` served one at a time, in order. -/
def run : List Op → Hub → Outcome Hub
  | [], h => .ok h
  | op :: ops, h =>
    match h.step op with
    | .ok h1 => run ops h1
    | .panic p => .panic p
    | .blocked => .blocked

/-- The operations that pass through the channels of `Run`. -/
def isIntent : Op → Bool
  | .sendMessage _ _ => false
  | _ => true

/-- The order of a broadcast is an order the runtime can range in: it lists
every key of the map once. -/
def rangeOk (h : Hub) : Op → Bool
  | .broadcast _ order => decide (order.Perm h.clients.keys)
  | _ => true

/-- The client passed to a register is newly made by `ServeWs`: its send
channel is `make(chan []byte, bufSize)`. -/
def registersNew (h : Hub) : Op → Bool
  | .register client => decide ((h.heap client).send = Chan.make bufSize)
  | _ => true

/-- Every broadcast of `ops`, served from `h` on, ranges in an order the
runtime can range in. -/
def rangesOk : List Op → Hub → Bool
  | [], _ => true
  | op :: ops, h =>
    h.rangeOk op &&
      match h.step op with
      | .ok h1 => rangesOk ops h1
      | _ => true

/-- Every register of `ops`, served from `h` on, passes a client newly made
by `ServeWs`. -/
def registersNewAll : List Op → Hub → Bool
  | [], _ => true
  | op :: ops, h =>
    h.registersNew op &&
      match h.step op with
      | .ok h1 => registersNewAll ops h1
      | _ => true

/-- The clients passed to the registers of `ops`, in order. -/
def registered : List Op → List Nat
  | [] => []
  | .register client :: ops => client :: registered ops
  | _ :: ops => registered ops

/-- The client `client` is a value of the map. -/
def present (h : Hub) (client : Nat) : Prop :=
  ∃ e ∈ h.clients, e.2 = client

/-- A map as `Run` builds it: no key twice, and every client filed under its
own uid. -/
def wellFormed (h : Hub) : Prop :=
  h.clients.keys.Nodup ∧ ∀ e ∈ h.clients, (h.heap e.2).uid = e.1

/-- Every client of the map has an open send channel. -/
def allOpen (h : Hub) : Prop :=
  ∀ e ∈ h.clients, (h.heap e.2).send.closed = false

/-- Every client of the map has a send channel of capacity `bufSize`, as
`ServeWs` makes it. -/
def allBufSize (h : Hub) : Prop :=
  ∀ e ∈ h.clients, (h.heap e.2).send.cap = bufSize

end Hub

/-! ## Specifications of the loops -/

/-- What the body of the broadcast loop does to an open send channel: the
message is appended when there is room, the channel is closed when not. -/
def Chan.offer (ch : Chan) (m : Message) : Chan :=
  if ch.buf.length < ch.cap then { ch with buf := ch.buf ++ [m] }
  else { ch with closed := true }

namespace Hub

/-- The client `client` has room in its send channel. -/
def hasRoom (h : Hub) (client : Nat) : Bool :=
  decide ((h.heap client).send.buf.length < (h.heap client).send.cap)

end Hub

/-! ## Memories and hubs to evaluate the code on -/

/-- A memory in which the client at the address `p` is the one `ServeWs`
builds for the uid `p`. -/
def heapById : Nat → Client := fun p => ServeWs p

/-- A memory in which every client is one `ServeWs` builds for the uid 2. -/
def heapAllTwo : Nat → Client := fun _ => ServeWs 2

/-- A send channel of capacity `bufSize` that is full of empty messages. -/
def fullChan : Chan := { cap := bufSize, buf := List.replicate 256 [], closed := false }

/-- A hub with two clients, uid 0 with an empty send channel and uid 1 with a
full one. -/
def twoClientHub : Hub :=
  { clients := [(0, 0), (1, 1)]
    heap := fun p => if p = 1 then { ServeWs 1 with send := fullChan } else ServeWs p }

/-- A client of uid 1 with two messages queued on an open send channel. -/
def twoQueued : Client :=
  { ServeWs 1 with send := { cap := bufSize, buf := [[1], [2]], closed := false } }

/-- A client of uid 1 whose send channel is drained and closed. -/
def closedQueue : Client :=
  { ServeWs 1 with send := { cap := bufSize, buf := [], closed := true } }

/-- A hub with the clients 0 and 1 registered under the uids 1 and 2, both
with the zero `lastCommTime`. -/
def twoStaleHub : Hub :=
  { clients := [(1, 0), (2, 1)], heap := fun p => ServeWs (p + 1) }

/-- Scenario C: 300 distinct messages, the message number `i` being the one
byte `i`. Each comes with the order of its range: the one key 1 while the
client of uid 1 is registered, no key once it is evicted. -/
def scenarioC : List (Message × List Int) :=
  (List.range 300).map (fun i => ([i], if i < 257 then [1] else []))

/-! ## Invariants of the hub -/

namespace Hub

/-- The invariant behind the sends of `Run` and `SendMessage`: the map is
well-formed and every client of it has an open send channel of capacity
`bufSize` holding at most `bufSize` messages. -/
def sound (h : Hub) : Prop :=
  h.wellFormed ∧
  ∀ e ∈ h.clients, (h.heap e.2).send.closed = false ∧
    (h.heap e.2).send.cap = bufSize ∧ (h.heap e.2).send.buf.length ≤ bufSize

/-- The client that serving `op` drops from the map without a close: a
register of a client replaces the client filed under the same uid, when that
is another client. -/
def supersededBy (h : Hub) : Op → List Nat
  | .register client =>
    match h.clients.get (h.heap client).uid with
    | some old => if old = client then [] else [old]
    | none => []
  | _ => []

/-- The clients that the registers of `ops`, served from `h` on, replace in
the map. -/
def superseded : List Op → Hub → List Nat
  | [], _ => []
  | op :: ops, h =>
    h.supersededBy op ++
      match h.step op with
      | .ok h1 => superseded ops h1
      | _ => []

/-- The test `_, ok := h.clients[client.uid]` of the unregister case speaks
for the client that is unregistered: its uid is not a key of the map, or it is
the key of this very client. -/
def unregistersOwn (h : Hub) : Op → Bool
  | .unregister client =>
    match h.clients.get (h.heap client).uid with
    | some c => decide (c = client)
    | none => true
  | _ => true

/-- Every unregister of `ops`, served from `h` on, passes a client whose uid
is not a key of the map or is the key of this very client. -/
def unregistersOwnAll : List Op → Hub → Bool
  | [], _ => true
  | op :: ops, h =>
    h.unregistersOwn op &&
      match h.step op with
      | .ok h1 => unregistersOwnAll ops h1
      | _ => true

/-- The invariant of the clients that left the map; `reg` lists the clients
registered so far and `sup` the clients that a register replaced. The map is
well-formed and holds registered clients with open send channels only, and a
registered client that is not in the map has a closed send channel or was
replaced by a register. -/
def settled (reg sup : List Nat) (h : Hub) : Prop :=
  h.wellFormed ∧
  (∀ e ∈ h.clients, e.2 ∈ reg ∧ (h.heap e.2).send.closed = false) ∧
  (∀ p ∈ reg, ¬ h.present p → (h.heap p).send.closed = true ∨ p ∈ sup)

/-- The invariant of the replaced clients, when every client is registered at
most once: a client that a register replaced has been registered, is not in
the map, and its send channel is open. -/
def shelved (reg sup : List Nat) (h : Hub) : Prop :=
  ∀ p ∈ sup, p ∈ reg ∧ ¬ h.present p ∧ (h.heap p).send.closed = false

end Hub

/-! ## Sequences of operations to evaluate the code on -/

/-- Two clients of distinct uids are registered, a message is broadcast, the
client 0 is sent a message, and the client 1 is unregistered twice. -/
def twoClientOps : List Op :=
  [.register 0, .register 1, .broadcast [5] [1, 0], .sendMessage 0 [6],
    .unregister 1, .unregister 1]

/-- Three clients of the one uid 2, one after the other. The client 0 is
registered and unregistered, twice; the client 1 is registered on the uid that
is free again and receives a broadcast; the client 2 is registered over the
client 1 and unregistered; the unregister of the client 1 then finds no key. -/
def reconnectIntents : List Op :=
  [.register 0, .unregister 0, .unregister 0, .register 1, .broadcast [7] [2],
    .register 2, .unregister 2, .unregister 1]

/-! ## The map of clients -/

namespace Clients

theorem get_delete_self (m : Clients) (k : Int) : (delete m k).get k = none := by
  induction m with
  | nil => rfl
  | cons e rest ih =>
    obtain ⟨a, c⟩ := e
    by_cases hk : a = k
    · simpa [delete, List.filter_cons, hk] using ih
    · simpa [delete, List.filter_cons, hk, get] using ih

theorem get_delete_ne (m : Clients) {k j : Int} (hne : j ≠ k) :
    (delete m k).get j = m.get j := by
  induction m with
  | nil => rfl
  | cons e rest ih =>
    obtain ⟨a, c⟩ := e
    have ih2 : get (List.filter (fun e => decide (e.1 ≠ k)) rest) j = get rest j := ih
    by_cases hk : a = k
    · have haj : a ≠ j := fun hj => hne (hj ▸ hk)
      have hd : decide ((a, c).1 ≠ k) = false := by simp [hk]
      simp only [delete, List.filter_cons, hd, get, haj, if_false]
      exact ih2
    · have hd : decide ((a, c).1 ≠ k) = true := by simp [hk]
      simp only [delete, List.filter_cons, hd, get, if_true]
      by_cases haj : a = j
      · simp only [haj, if_true]
      · simp only [haj, if_false]
        exact ih2

theorem get_set_self (m : Clients) (k : Int) (c : Nat) : (set m k c).get k = some c := by
  simp [set, get]

theorem get_set_ne (m : Clients) {k j : Int} (c : Nat) (hne : j ≠ k) :
    (set m k c).get j = m.get j := by
  have hkj : k ≠ j := fun hj => hne hj.symm
  simp [set, get, hkj, get_delete_ne m hne]

theorem mem_of_get {m : Clients} {k : Int} {c : Nat} (hg : m.get k = some c) :
    (k, c) ∈ m := by
  induction m with
  | nil => simp [get] at hg
  | cons e rest ih =>
    obtain ⟨a, d⟩ := e
    by_cases hk : a = k
    · simp [get, hk] at hg
      simp [hk, hg]
    · simp [get, hk] at hg
      exact List.mem_cons_of_mem _ (ih hg)

theorem get_eq_none_of_not_mem_keys {m : Clients} {k : Int} (hk : k ∉ m.keys) :
    m.get k = none := by
  cases hg : m.get k with
  | none => rfl
  | some c =>
    exact absurd (List.mem_map_of_mem Prod.fst (mem_of_get hg)) hk

theorem get_of_mem {m : Clients} (hnd : m.keys.Nodup) {k : Int} {c : Nat}
    (hm : (k, c) ∈ m) : m.get k = some c := by
  induction m with
  | nil => simp at hm
  | cons e rest ih =>
    obtain ⟨a, d⟩ := e
    simp only [keys, List.map_cons, List.nodup_cons] at hnd
    rcases List.mem_cons.mp hm with heq | hin
    · simp only [Prod.mk.injEq] at heq
      simp [get, heq.1, heq.2]
    · have hak : a ≠ k := by
        intro hak
        exact hnd.1 (hak ▸ List.mem_map_of_mem Prod.fst hin)
      simpa [get, hak] using ih hnd.2 hin

theorem mem_keys_iff_get {m : Clients} {k : Int} : k ∈ m.keys ↔ ∃ c, m.get k = some c := by
  constructor
  · intro hk
    cases hg : m.get k with
    | some c => exact ⟨c, rfl⟩
    | none =>
      exfalso
      induction m with
      | nil => simp [keys] at hk
      | cons e rest ih =>
        obtain ⟨a, d⟩ := e
        by_cases hak : a = k
        · simp [get, hak] at hg
        · simp only [get, hak, if_false] at hg
          simp only [keys, List.map_cons, List.mem_cons] at hk
          rcases hk with h1 | h2
          · exact hak h1.symm
          · exact ih h2 hg
  · rintro ⟨c, hc⟩
    exact List.mem_map_of_mem Prod.fst (mem_of_get hc)

theorem delete_sublist (m : Clients) (k : Int) : (delete m k).Sublist m :=
  List.filter_sublist m

theorem keys_nodup_of_sublist {m n : Clients} (hs : n.Sublist m) (hnd : m.keys.Nodup) :
    n.keys.Nodup :=
  (hs.map Prod.fst).nodup hnd

end Clients

/-! ## The broadcast loop -/

namespace Hub

theorem broadcastLoop_spec (m : Message) :
    ∀ (order : List Int) (h : Hub), order.Nodup →
      (∀ k ∈ order, ∀ c, h.clients.get k = some c →
        (h.heap c).uid = k ∧ (h.heap c).send.closed = false) →
      ∃ h2, broadcastLoop m order h = .ok h2 ∧
        h2.clients.Sublist h.clients ∧
        (∀ k, h2.clients.get k =
          if k ∈ order then (h.clients.get k).filter h.hasRoom else h.clients.get k) ∧
        (∀ p, h2.heap p =
          if (h.heap p).uid ∈ order ∧ h.clients.get (h.heap p).uid = some p then
            { h.heap p with send := (h.heap p).send.offer m }
          else h.heap p) := by
  intro order
  induction order with
  | nil =>
    intro h _ _
    exact ⟨h, rfl, List.Sublist.refl _, fun k => by simp, fun p => by simp⟩
  | cons uid rest ih =>
    intro h hnd hyp
    have hnotin : uid ∉ rest := (List.nodup_cons.mp hnd).1
    have hnd2 : rest.Nodup := (List.nodup_cons.mp hnd).2
    cases hg : h.clients.get uid with
    | none =>
      have hyp2 : ∀ k ∈ rest, ∀ c, h.clients.get k = some c →
          (h.heap c).uid = k ∧ (h.heap c).send.closed = false :=
        fun k hk c hc => hyp k (List.mem_cons_of_mem _ hk) c hc
      obtain ⟨h2, hrun, hsub, hget, hheap⟩ := ih h hnd2 hyp2
      refine ⟨h2, ?_, hsub, ?_, ?_⟩
      · simp only [broadcastLoop, hg]
        exact hrun
      · intro k
        rw [hget k]
        by_cases hk : k = uid
        · subst hk
          simp [hnotin, hg]
        · simp [hk]
      · intro p
        rw [hheap p]
        by_cases hp : (h.heap p).uid = uid
        · simp [hp, hg, hnotin]
        · simp [hp]
    | some client =>
      obtain ⟨huid, hopen⟩ := hyp uid (List.mem_cons_self _ _) client hg
      by_cases hroom : (h.heap client).send.buf.length < (h.heap client).send.cap
      · -- the send succeeds
        let ch : Chan := { (h.heap client).send with buf := (h.heap client).send.buf ++ [m] }
        have hsend : (h.heap client).send.trySend m = .ok (some ch) := by
          simp [Chan.trySend, hopen, hroom, ch]
        have hyp2 : ∀ k ∈ rest, ∀ c, (h.setSend client ch).clients.get k = some c →
            ((h.setSend client ch).heap c).uid = k ∧
              ((h.setSend client ch).heap c).send.closed = false := by
          intro k hk c hc
          have hc2 : h.clients.get k = some c := hc
          obtain ⟨h1, h2⟩ := hyp k (List.mem_cons_of_mem _ hk) c hc2
          have hne : c ≠ client := by
            intro heq
            rw [heq, huid] at h1
            exact hnotin (h1 ▸ hk)
          simp only [setSend, hne, if_false]
          exact ⟨h1, h2⟩
        obtain ⟨h2, hrun, hsub, hget, hheap⟩ := ih (h.setSend client ch) hnd2 hyp2
        refine ⟨h2, ?_, hsub, ?_, ?_⟩
        · simp only [broadcastLoop, hg, hsend]
          exact hrun
        · intro k
          rw [hget k]
          have hcl : (h.setSend client ch).clients = h.clients := rfl
          rw [hcl]
          by_cases hk : k = uid
          · subst hk
            simp [hnotin, hg, Option.filter, hasRoom, hroom]
          · by_cases hkr : k ∈ rest
            · simp only [hkr, List.mem_cons, or_true, if_true]
              cases hgk : h.clients.get k with
              | none => rfl
              | some c =>
                obtain ⟨h1, _⟩ := hyp k (List.mem_cons_of_mem _ hkr) c hgk
                have hne : c ≠ client := by
                  intro heq
                  rw [heq, huid] at h1
                  exact hk h1.symm
                simp [Option.filter, hasRoom, setSend, hne]
            · simp [hk, hkr]
        · intro p
          rw [hheap p]
          have hcl : (h.setSend client ch).clients = h.clients := rfl
          rw [hcl]
          by_cases hp : p = client
          · subst hp
            simp [setSend, huid, hnotin, hg, Chan.offer, hroom, ch]
          · have hpu : ¬ ((h.heap p).uid = uid ∧ h.clients.get (h.heap p).uid = some p) := by
              rintro ⟨h1, h2⟩
              rw [h1, hg] at h2
              exact hp (Option.some.inj h2).symm
            by_cases hpuid : (h.heap p).uid = uid
            · have : h.clients.get uid ≠ some p := by
                intro h2
                rw [hg] at h2
                exact hp (Option.some.inj h2).symm
              simp [setSend, hp, hpuid, hnotin, this]
            · simp [setSend, hp, hpuid]
      · -- the default branch: close and delete
        let ch : Chan := { (h.heap client).send with closed := true }
        have hsend : (h.heap client).send.trySend m = .ok none := by
          simp [Chan.trySend, hopen, hroom]
        have hclose : (h.heap client).send.close = .ok ch := by
          simp [Chan.close, hopen, ch]
        let h1 : Hub := { h.setSend client ch with clients := h.clients.delete uid }
        have hyp2 : ∀ k ∈ rest, ∀ c, h1.clients.get k = some c →
            (h1.heap c).uid = k ∧ (h1.heap c).send.closed = false := by
          intro k hk c hc
          have hku : k ≠ uid := fun heq => hnotin (heq ▸ hk)
          have hc2 : h.clients.get k = some c := by
            rw [← Clients.get_delete_ne h.clients hku]
            exact hc
          obtain ⟨e1, e2⟩ := hyp k (List.mem_cons_of_mem _ hk) c hc2
          have hne : c ≠ client := by
            intro heq
            rw [heq, huid] at e1
            exact hku e1.symm
          simp only [h1, setSend, hne, if_false]
          exact ⟨e1, e2⟩
        obtain ⟨h2, hrun, hsub, hget, hheap⟩ := ih h1 hnd2 hyp2
        refine ⟨h2, ?_, hsub.trans (Clients.delete_sublist _ _), ?_, ?_⟩
        · simp only [broadcastLoop, hg, hsend, hclose]
          exact hrun
        · intro k
          rw [hget k]
          have hcl : h1.clients = h.clients.delete uid := rfl
          rw [hcl]
          by_cases hk : k = uid
          · subst hk
            simp [hnotin, hg, Option.filter, hasRoom, hroom, Clients.get_delete_self]
          · rw [Clients.get_delete_ne h.clients hk]
            by_cases hkr : k ∈ rest
            · simp only [hkr, List.mem_cons, or_true, if_true]
              cases hgk : h.clients.get k with
              | none => rfl
              | some c =>
                obtain ⟨e1, _⟩ := hyp k (List.mem_cons_of_mem _ hkr) c hgk
                have hne : c ≠ client := by
                  intro heq
                  rw [heq, huid] at e1
                  exact hk e1.symm
                simp [Option.filter, hasRoom, h1, setSend, hne]
            · simp [hk, hkr]
        · intro p
          rw [hheap p]
          have hcl : h1.clients = h.clients.delete uid := rfl
          rw [hcl]
          by_cases hp : p = client
          · subst hp
            simp [h1, setSend, huid, hnotin, hg, Chan.offer, hroom, ch]
          · by_cases hpuid : (h.heap p).uid = uid
            · have : h.clients.get uid ≠ some p := by
                intro e2
                rw [hg] at e2
                exact hp (Option.some.inj e2).symm
              simp [h1, setSend, hp, hpuid, hnotin, this]
            · simp [h1, setSend, hp, hpuid, Clients.get_delete_ne h.clients hpuid]

end Hub

/-! ## The operations of the hub, one at a time -/

namespace Hub

theorem uid_of_get {h : Hub} (hwf : h.wellFormed) {k : Int} {c : Nat}
    (hg : h.clients.get k = some c) : (h.heap c).uid = k :=
  hwf.2 (k, c) (Clients.mem_of_get hg)

/-- The characterisation of the broadcast loop, for a well-formed hub whose
clients all have open send channels and an order the runtime can range in. -/
theorem broadcast_spec {h : Hub} (m : Message) {order : List Int}
    (hwf : h.wellFormed) (hopen : h.allOpen) (hord : order.Perm h.clients.keys) :
    ∃ h2, h.broadcast m order = .ok h2 ∧
      h2.clients.Sublist h.clients ∧
      (∀ k, h2.clients.get k = (h.clients.get k).filter h.hasRoom) ∧
      (∀ p, h2.heap p =
        if h.clients.get (h.heap p).uid = some p then
          { h.heap p with send := (h.heap p).send.offer m }
        else h.heap p) := by
  have hnd : order.Nodup := hord.nodup_iff.mpr hwf.1
  have hyp : ∀ k ∈ order, ∀ c, h.clients.get k = some c →
      (h.heap c).uid = k ∧ (h.heap c).send.closed = false := by
    intro k _ c hc
    exact ⟨uid_of_get hwf hc, hopen (k, c) (Clients.mem_of_get hc)⟩
  obtain ⟨h2, hrun, hsub, hget, hheap⟩ := broadcastLoop_spec m order h hnd hyp
  refine ⟨h2, hrun, hsub, ?_, ?_⟩
  · intro k
    rw [hget k]
    by_cases hk : k ∈ order
    · simp [hk]
    · have hk2 : k ∉ h.clients.keys := fun hin => hk (hord.mem_iff.mpr hin)
      simp [hk, Clients.get_eq_none_of_not_mem_keys hk2]
  · intro p
    rw [hheap p]
    by_cases hp : h.clients.get (h.heap p).uid = some p
    · have hin : (h.heap p).uid ∈ order :=
        hord.mem_iff.mpr (Clients.mem_keys_iff_get.mpr ⟨p, hp⟩)
      simp [hp, hin]
    · simp [hp]

end Hub

/-- C1. Broadcast, one step of the loop of `Run`, on a hub whose map files
every client under its own uid, whose clients all have an open send channel of
capacity `bufSize` (256), ranging in any order the runtime can choose: the
broadcast completes, and (a) every client registered with fewer than 256
queued messages is still registered and only its queue changed, to the old
queue with `m` appended at the tail; (b) every client registered with 256
queued messages is no longer a value of the map, its queue is closed and
otherwise unchanged; (c) an id registered afterwards was registered before, to
the same client. -/
theorem broadcast_delivers_or_evicts (h : Hub) (m : Message) (order : List Int)
    (hwf : h.wellFormed) (hopen : h.allOpen) (hcap : h.allBufSize)
    (hord : order.Perm h.clients.keys) :
    ∃ h2, h.broadcast m order = .ok h2 ∧
      (∀ k c, h.clients.get k = some c → (h.heap c).send.buf.length < 256 →
        h2.clients.get k = some c ∧
        h2.heap c = { h.heap c with
          send := { (h.heap c).send with buf := (h.heap c).send.buf ++ [m] } }) ∧
      (∀ k c, h.clients.get k = some c → (h.heap c).send.buf.length = 256 →
        h2.clients.get k = none ∧ ¬ h2.present c ∧
        h2.heap c = { h.heap c with send := { (h.heap c).send with closed := true } }) ∧
      (∀ k c, h2.clients.get k = some c → h.clients.get k = some c) := by
  obtain ⟨h2, hrun, hsub, hget, hheap⟩ := Hub.broadcast_spec m hwf hopen hord
  have hwf2 : h2.clients.keys.Nodup := Clients.keys_nodup_of_sublist hsub hwf.1
  refine ⟨h2, hrun, ?_, ?_, ?_⟩
  · intro k c hg hlen
    have hc : (h.heap c).send.cap = 256 := hcap (k, c) (Clients.mem_of_get hg)
    have hu : (h.heap c).uid = k := Hub.uid_of_get hwf hg
    have hroom : (h.heap c).send.buf.length < (h.heap c).send.cap := by omega
    constructor
    · rw [hget k, hg]
      simp [Option.filter, Hub.hasRoom, hroom]
    · rw [hheap c]
      simp [hu, hg, Chan.offer, hroom]
  · intro k c hg hlen
    have hc : (h.heap c).send.cap = 256 := hcap (k, c) (Clients.mem_of_get hg)
    have hu : (h.heap c).uid = k := Hub.uid_of_get hwf hg
    have hroom : ¬ (h.heap c).send.buf.length < (h.heap c).send.cap := by omega
    have hnone : h2.clients.get k = none := by
      rw [hget k, hg]
      simp [Option.filter, Hub.hasRoom, hroom]
    have hheapc : h2.heap c =
        { h.heap c with send := { (h.heap c).send with closed := true } } := by
      rw [hheap c]
      simp [hu, hg, Chan.offer, hroom]
    refine ⟨hnone, ?_, hheapc⟩
    rintro ⟨e, he, rfl⟩
    have he1 : e ∈ h.clients := hsub.subset he
    have hk : e.1 = k := by rw [← hwf.2 e he1]; exact hu
    have h1 : h2.clients.get e.1 = some e.2 := Clients.get_of_mem hwf2 he
    rw [hk, hnone] at h1
    exact Option.noConfusion h1
  · intro k c hg
    rw [hget k] at hg
    cases hk : h.clients.get k with
    | none => simp [hk, Option.filter] at hg
    | some d =>
      rw [hk] at hg
      by_cases hr : h.hasRoom d = true
      · simp [Option.filter, hr] at hg
        rw [hg]
      · simp [Option.filter, hr] at hg

/-- C1, on a hub with the client 0 (uid 0, empty queue) and the client 1
(uid 1, full queue), ranging from uid 1 to uid 0. -/
theorem broadcast_delivers_or_evicts_witness :
    twoClientHub.wellFormed ∧ twoClientHub.allOpen ∧ twoClientHub.allBufSize ∧
    [1, 0].Perm twoClientHub.clients.keys ∧
    ∃ h2, twoClientHub.broadcast [104, 105] [1, 0] = .ok h2 ∧
      (∀ k c, twoClientHub.clients.get k = some c →
        (twoClientHub.heap c).send.buf.length < 256 →
        h2.clients.get k = some c ∧
        h2.heap c = { twoClientHub.heap c with
          send := { (twoClientHub.heap c).send with
            buf := (twoClientHub.heap c).send.buf ++ [[104, 105]] } }) ∧
      (∀ k c, twoClientHub.clients.get k = some c →
        (twoClientHub.heap c).send.buf.length = 256 →
        h2.clients.get k = none ∧ ¬ h2.present c ∧
        h2.heap c = { twoClientHub.heap c with
          send := { (twoClientHub.heap c).send with closed := true } }) ∧
      (∀ k c, h2.clients.get k = some c → twoClientHub.clients.get k = some c) :=
  have hwf : twoClientHub.wellFormed := by
    unfold Hub.wellFormed
    decide
  have hopen : twoClientHub.allOpen := by
    unfold Hub.allOpen
    decide
  have hcap : twoClientHub.allBufSize := by
    unfold Hub.allBufSize
    decide
  have hord : [1, 0].Perm twoClientHub.clients.keys := by decide
  ⟨hwf, hopen, hcap, hord,
    broadcast_delivers_or_evicts twoClientHub [104, 105] [1, 0] hwf hopen hcap hord⟩

/-- C2. Unregister of a client `r` that is the client registered under its
uid, with an open send channel: the step completes, the uid of `r` is no
longer a key of the map, the send channel of `r` is closed and otherwise
unchanged, every other id maps to what it mapped to, no other client is
touched, and a second unregister of `r` right after changes nothing: it
completes with the very same hub, so the channel was closed once. -/
theorem unregister_removes_closes_once (h : Hub) (r : Nat)
    (hreg : h.clients.get (h.heap r).uid = some r)
    (hopen : (h.heap r).send.closed = false) :
    ∃ h2, h.unregister r = .ok h2 ∧
      (h.heap r).uid ∉ h2.clients.keys ∧
      h2.clients.get (h.heap r).uid = none ∧
      h2.heap r = { h.heap r with send := { (h.heap r).send with closed := true } } ∧
      (∀ k, k ≠ (h.heap r).uid → h2.clients.get k = h.clients.get k) ∧
      (∀ p, p ≠ r → h2.heap p = h.heap p) ∧
      h2.unregister r = .ok h2 := by
  let ch : Chan := { (h.heap r).send with closed := true }
  let h1 : Hub := { h with clients := h.clients.delete (h.heap r).uid }
  have hclose : (h.heap r).send.close = .ok ch := by
    simp [Chan.close, hopen, ch]
  have hrun : h.unregister r = .ok (h1.setSend r ch) := by
    simp only [Hub.unregister, hreg]
    rw [hclose]
  have hnone : (h1.setSend r ch).clients.get (h.heap r).uid = none :=
    Clients.get_delete_self h.clients (h.heap r).uid
  refine ⟨h1.setSend r ch, hrun, ?_, hnone, ?_, ?_, ?_, ?_⟩
  · intro hin
    obtain ⟨c, hc⟩ := Clients.mem_keys_iff_get.mp hin
    rw [hnone] at hc
    exact Option.noConfusion hc
  · simp [Hub.setSend, h1, ch]
  · intro k hk
    exact Clients.get_delete_ne h.clients hk
  · intro p hp
    simp [Hub.setSend, h1, hp]
  · have huid : ((h1.setSend r ch).heap r).uid = (h.heap r).uid := by
      simp [Hub.setSend, h1]
    simp only [Hub.unregister, huid, hnone]

/-- C2, on the hub in which the client 0 alone is registered, under the
uid 0. -/
theorem unregister_removes_closes_once_witness :
    ((NewHub heapById).register 0).clients.get (((NewHub heapById).register 0).heap 0).uid
      = some 0 ∧
    ((((NewHub heapById).register 0).heap 0).send.closed = false) ∧
    ∃ h2, ((NewHub heapById).register 0).unregister 0 = .ok h2 ∧
      (((NewHub heapById).register 0).heap 0).uid ∉ h2.clients.keys ∧
      h2.clients.get (((NewHub heapById).register 0).heap 0).uid = none ∧
      h2.heap 0 = { ((NewHub heapById).register 0).heap 0 with
        send := { (((NewHub heapById).register 0).heap 0).send with closed := true } } ∧
      (∀ k, k ≠ (((NewHub heapById).register 0).heap 0).uid →
        h2.clients.get k = ((NewHub heapById).register 0).clients.get k) ∧
      (∀ p, p ≠ 0 → h2.heap p = ((NewHub heapById).register 0).heap p) ∧
      h2.unregister 0 = .ok h2 :=
  ⟨by decide, by decide,
    unregister_removes_closes_once ((NewHub heapById).register 0) 0 (by decide) (by decide)⟩

/-- C4. SendMessage to an id that is not a key of the map: the call completes
on the not-found branch, it logs "not found client", and the hub it leaves is
the hub it found: the map and every send channel are unchanged. -/
theorem sendMessage_unknown_id (h : Hub) (uid : Int) (m : Message)
    (hno : uid ∉ h.clients.keys) :
    h.SendMessage uid m = .ok (h, ["not found client"]) := by
  simp only [Hub.SendMessage, Clients.get_eq_none_of_not_mem_keys hno]

/-- C4, for the uid 7 on the hub with the clients of uid 0 and uid 1. -/
theorem sendMessage_unknown_id_witness :
    (7 : Int) ∉ twoClientHub.clients.keys ∧
    twoClientHub.SendMessage 7 [120] = .ok (twoClientHub, ["not found client"]) :=
  ⟨by decide, sendMessage_unknown_id twoClientHub 7 [120] (by decide)⟩

/-- C9. Register of a client `r`: afterwards the map sends the uid of `r` to
`r`, under one entry, and every other id to what it was sent to before; the
memory is unchanged, so no send channel is closed or modified. When the map
filed every client under its own uid and another client `r0` was registered
under the uid of `r`, then `r0` is no longer a value of the map and its send
channel is as it was (open when it was open). -/
theorem register_overwrites (h : Hub) (r : Nat) :
    (h.register r).clients.get (h.heap r).uid = some r ∧
    (h.register r).clients.keys.count (h.heap r).uid = 1 ∧
    (∀ k, k ≠ (h.heap r).uid → (h.register r).clients.get k = h.clients.get k) ∧
    (h.register r).heap = h.heap ∧
    (∀ r0, h.wellFormed → h.clients.get (h.heap r).uid = some r0 → r0 ≠ r →
      ¬ (h.register r).present r0 ∧
      ((h.register r).heap r0).send = (h.heap r0).send) := by
  refine ⟨Clients.get_set_self _ _ _, ?_, ?_, rfl, ?_⟩
  · have hz : (h.clients.delete (h.heap r).uid).keys.count (h.heap r).uid = 0 := by
      rw [List.count_eq_zero]
      intro hin
      obtain ⟨c, hc⟩ := Clients.mem_keys_iff_get.mp hin
      rw [Clients.get_delete_self] at hc
      exact Option.noConfusion hc
    have hz2 : List.count (h.heap r).uid (List.map Prod.fst (h.clients.delete (h.heap r).uid))
        = 0 := hz
    simp [Hub.register, Clients.set, Clients.keys, hz2]
  · intro k hk
    exact Clients.get_set_ne h.clients r hk
  · intro r0 hwf hg hne
    refine ⟨?_, rfl⟩
    rintro ⟨e, he, rfl⟩
    simp only [Hub.register, Clients.set, List.mem_cons] at he
    rcases he with heq | hin
    · exact hne (by rw [heq])
    · have hin1 : e ∈ h.clients := (Clients.delete_sublist _ _).subset hin
      have hk : e.1 = (h.heap r).uid := by
        rw [← hwf.2 e hin1, Hub.uid_of_get hwf hg]
      have hget : (h.clients.delete (h.heap r).uid).get e.1 = some e.2 :=
        Clients.get_of_mem
          (Clients.keys_nodup_of_sublist (Clients.delete_sublist _ _) hwf.1) hin
      rw [hk, Clients.get_delete_self] at hget
      exact Option.noConfusion hget

/-- C9, Scenario D: two clients of uid 2 registered one after the other. The
map has the one entry of the later client, the earlier client is no longer a
value of the map, and its send channel is still open. -/
theorem register_overwrites_witness :
    ((NewHub heapAllTwo).register 0).wellFormed ∧
    ((NewHub heapAllTwo).register 0).clients.get (((NewHub heapAllTwo).register 0).heap 1).uid
      = some 0 ∧
    (0 : Nat) ≠ 1 ∧
    (((NewHub heapAllTwo).register 0).register 1).clients = [(2, 1)] ∧
    ¬ (((NewHub heapAllTwo).register 0).register 1).present 0 ∧
    ((((NewHub heapAllTwo).register 0).register 1).heap 0).send.closed = false :=
  have hwf : ((NewHub heapAllTwo).register 0).wellFormed := by
    unfold Hub.wellFormed
    decide
  ⟨hwf, by decide, by decide, by decide,
    ((register_overwrites ((NewHub heapAllTwo).register 0) 1).2.2.2.2 0 hwf
      (by decide) (by decide)).1,
    by decide⟩

/-! ## Register, send, and the write pump -/

namespace Hub

theorem run_sendMessages (k : Int) (r : Nat) :
    ∀ (ms : List Message) (h : Hub), h.clients.get k = some r →
      (h.heap r).send.closed = false →
      (h.heap r).send.buf.length + ms.length ≤ (h.heap r).send.cap →
      ∃ h2, h.run (ms.map (Op.sendMessage k)) = .ok h2 ∧
        h2.clients = h.clients ∧
        h2.heap r = { h.heap r with
          send := { (h.heap r).send with buf := (h.heap r).send.buf ++ ms } } ∧
        ∀ p, p ≠ r → h2.heap p = h.heap p := by
  intro ms
  induction ms with
  | nil =>
    intro h _ _ _
    exact ⟨h, rfl, rfl, by simp, fun _ _ => rfl⟩
  | cons m ms ih =>
    intro h hg hopen hlen
    simp only [List.length_cons] at hlen
    have hroom : (h.heap r).send.buf.length < (h.heap r).send.cap := by omega
    let ch : Chan := { (h.heap r).send with buf := (h.heap r).send.buf ++ [m] }
    have hstep : h.step (Op.sendMessage k m) = .ok (h.setSend r ch) := by
      simp [Hub.step, Hub.SendMessage, hg, Chan.send, hopen, hroom, ch]
    have hheap1 : (h.setSend r ch).heap r = { h.heap r with send := ch } := by
      simp [Hub.setSend]
    obtain ⟨h2, hrun, hcl, hr, hothers⟩ := ih (h.setSend r ch) hg
      (by rw [hheap1]; exact hopen)
      (by rw [hheap1]; simp only [ch, List.length_append, List.length_singleton]; omega)
    refine ⟨h2, ?_, hcl, ?_, ?_⟩
    · simp only [List.map_cons, Hub.run, hstep]
      exact hrun
    · rw [hr, hheap1]
      simp [ch]
    · intro p hp
      rw [hothers p hp]
      simp [Hub.setSend, hp]

end Hub

namespace Client

theorem writePump_drains (writeOk : Nat → Bool) (now : Nat → Time)
    (hok : ∀ n, writeOk n = true) :
    ∀ (ms : List Message) (c : Client) (fuel : Nat), c.send.buf = ms →
      c.send.closed = false → ms.length < fuel →
      ∃ c2, c.writePump writeOk now fuel = (c2, .waiting) ∧
        c2.conn.wire = c.conn.wire ++ ms.map (fun m => (MessageType.binary, m)) ∧
        c2.conn.closeFrame = c.conn.closeFrame ∧
        c2.send = { c.send with buf := [] } := by
  intro ms
  induction ms with
  | nil =>
    intro c fuel hbuf hopen hfuel
    obtain ⟨n, rfl⟩ : ∃ n, fuel = n + 1 := ⟨fuel - 1, by simp at hfuel; omega⟩
    refine ⟨c, ?_, by simp, rfl, ?_⟩
    · simp [writePump, Chan.recv, hbuf, hopen]
    · cases hs : c.send
      simp [hs] at hbuf
      simp [hbuf]
  | cons m ms ih =>
    intro c fuel hbuf hopen hfuel
    obtain ⟨n, rfl⟩ : ∃ n, fuel = n + 1 := ⟨fuel - 1, by simp at hfuel; omega⟩
    simp only [List.length_cons] at hfuel
    let c1 : Client :=
      { conn := c.conn.Write true .binary m, uid := c.uid,
        lastCommTime := now c.conn.writes, send := { c.send with buf := ms } }
    have hstep : c.writePump writeOk now (n + 1) = c1.writePump writeOk now n := by
      simp [writePump, Chan.recv, hbuf, writePumpCase, hok, Flow.ofSelect, c1]
    obtain ⟨c2, hrun, hwire, hclose, hsend⟩ := ih c1 n rfl hopen (by omega)
    refine ⟨c2, by rw [hstep]; exact hrun, ?_, ?_, ?_⟩
    · rw [hwire]
      simp [c1, Conn.Write]
    · rw [hclose]
      simp [c1, Conn.Write]
    · rw [hsend]

/-- The loop of `writePump` has no way out: whatever the writes do and however
long it runs, `writePump` has not returned and its deferred `Close` has not
run. -/
theorem writePump_never_returns (writeOk : Nat → Bool) (now : Nat → Time) :
    ∀ (fuel : Nat) (c : Client),
      (c.writePump writeOk now fuel).2 ≠ .returned ∧
      (c.writePump writeOk now fuel).1.conn.closeFrame = c.conn.closeFrame := by
  intro fuel
  induction fuel with
  | zero =>
    intro c
    simp [writePump]
  | succ n ih =>
    intro c
    cases hr : c.send.recv with
    | blocks => simp [writePump, hr]
    | closed =>
      have hstep : c.writePump writeOk now (n + 1) = c.writePump writeOk now n := by
        simp [writePump, hr, writePumpCase, Flow.ofSelect]
      rw [hstep]
      exact ih c
    | message m rest =>
      by_cases hw : writeOk c.conn.writes = true
      · let c1 : Client :=
          { conn := c.conn.Write true .binary m, uid := c.uid,
            lastCommTime := now c.conn.writes, send := rest }
        have hstep : c.writePump writeOk now (n + 1) = c1.writePump writeOk now n := by
          simp [writePump, hr, writePumpCase, hw, Flow.ofSelect, c1]
        rw [hstep]
        exact ⟨(ih c1).1, by rw [(ih c1).2]; simp [c1, Conn.Write]⟩
      · let c1 : Client :=
          { conn := c.conn.Write false .binary m, uid := c.uid,
            lastCommTime := c.lastCommTime, send := rest }
        have hstep : c.writePump writeOk now (n + 1) = c1.writePump writeOk now n := by
          simp [writePump, hr, writePumpCase, hw, Flow.ofSelect, c1]
        rw [hstep]
        exact ⟨(ih c1).1, by rw [(ih c1).2]; simp [c1, Conn.Write]⟩

end Client

/-- C5. Register of a client `r` newly made by `ServeWs` (open, empty send
channel of capacity 256), followed by `SendMessage` to its uid for each of at
most 256 messages in turn: every call completes, the send channel of `r` then
holds exactly these messages in their order, and no other client is touched.
The write pump of `r`, run from there for more iterations than there are
messages while every write succeeds, has appended to the wire exactly these
messages, in their order, each as one binary frame, and waits for more. -/
theorem register_send_roundtrip (h : Hub) (r : Nat) (ms : List Message)
    (hnew : (h.heap r).send = Chan.make bufSize) (hlen : ms.length ≤ 256) :
    ∃ h2, (h.register r).run (ms.map (Op.sendMessage (h.heap r).uid)) = .ok h2 ∧
      (h2.heap r).send = { Chan.make bufSize with buf := ms } ∧
      (∀ p, p ≠ r → h2.heap p = h.heap p) ∧
      ∀ (writeOk : Nat → Bool) (now : Nat → Time) (fuel : Nat),
        (∀ n, writeOk n = true) → ms.length < fuel →
        ∃ c2, (h2.heap r).writePump writeOk now fuel = (c2, .waiting) ∧
          c2.conn.wire = (h.heap r).conn.wire ++ ms.map (fun m => (MessageType.binary, m)) ∧
          c2.send.buf = [] := by
  have hg : (h.register r).clients.get (h.heap r).uid = some r :=
    Clients.get_set_self _ _ _
  have hheap : (h.register r).heap = h.heap := rfl
  obtain ⟨h2, hrun, _, hr, hothers⟩ := Hub.run_sendMessages (h.heap r).uid r ms (h.register r) hg
    (by rw [hheap, hnew]; rfl)
    (by rw [hheap, hnew]; simp [Chan.make, bufSize]; exact hlen)
  rw [hheap] at hr
  have hsend : (h2.heap r).send = { Chan.make bufSize with buf := ms } := by
    rw [hr, hnew]
    simp [Chan.make]
  refine ⟨h2, hrun, hsend, fun p hp => by rw [hothers p hp, hheap], ?_⟩
  intro writeOk now fuel hok hfuel
  obtain ⟨c2, hpump, hwire, _, hs⟩ :=
    Client.writePump_drains writeOk now hok ms (h2.heap r) fuel
      (by rw [hsend]) (by rw [hsend]; rfl) hfuel
  refine ⟨c2, hpump, ?_, by rw [hs]⟩
  rw [hwire, hr]

/-- C5, Scenario A: the client of uid 1 is registered on the new hub and is
sent "hi" (the bytes 104, 105). -/
theorem register_send_roundtrip_witness :
    ((NewHub heapById).heap 1).send = Chan.make bufSize ∧
    [[104, 105]].length ≤ 256 ∧
    ∃ h2, ((NewHub heapById).register 1).run
        ([[104, 105]].map (Op.sendMessage ((NewHub heapById).heap 1).uid)) = .ok h2 ∧
      (h2.heap 1).send = { Chan.make bufSize with buf := [[104, 105]] } ∧
      (∀ p, p ≠ 1 → h2.heap p = (NewHub heapById).heap p) ∧
      ∀ (writeOk : Nat → Bool) (now : Nat → Time) (fuel : Nat),
        (∀ n, writeOk n = true) → [[104, 105]].length < fuel →
        ∃ c2, (h2.heap 1).writePump writeOk now fuel = (c2, .waiting) ∧
          c2.conn.wire = ((NewHub heapById).heap 1).conn.wire ++
            [[104, 105]].map (fun m => (MessageType.binary, m)) ∧
          c2.send.buf = [] :=
  ⟨by decide, by decide,
    register_send_roundtrip (NewHub heapById) 1 [[104, 105]] (by decide) (by decide)⟩

/-- C7, evaluated. The client has the messages [1] and [2] queued and its
first write fails: the pump goes on to take the second message and write it,
then waits for more; the connection is not closed. With a drained and closed
send channel the pump is still in its loop after 50 iterations, and the
connection is not closed. -/
theorem writePump_goes_on_after_failure :
    (twoQueued.writePump (fun n => decide (n ≠ 0)) (fun _ => 7) 5).2 = .waiting ∧
    (twoQueued.writePump (fun n => decide (n ≠ 0)) (fun _ => 7) 5).1.conn.writes = 2 ∧
    (twoQueued.writePump (fun n => decide (n ≠ 0)) (fun _ => 7) 5).1.conn.wire
      = [(.binary, [2])] ∧
    (twoQueued.writePump (fun n => decide (n ≠ 0)) (fun _ => 7) 5).1.send.buf = [] ∧
    (twoQueued.writePump (fun n => decide (n ≠ 0)) (fun _ => 7) 5).1.conn.closeFrame = none ∧
    (closedQueue.writePump (fun _ => true) (fun _ => 7) 50).2 = .running ∧
    (closedQueue.writePump (fun _ => true) (fun _ => 7) 50).1.conn.closeFrame = none := by
  decide

/-! ## The heartbeat -/

namespace Hub

/-- A tick of `heartbeat` on which the probe of a stale registered client
fails ends with `heartbeat` returned. -/
theorem heartbeatRange_returns_on_failed_probe (pingOk : Nat → Bool) (currentTime : Time) :
    ∀ (order : List Int) (h : Hub),
      (∃ k ∈ order, ∃ c, h.clients.get k = some c ∧
        30 * Second ≤ Time.Sub currentTime (h.heap c).lastCommTime ∧ pingOk c = false) →
      (h.heartbeatRange pingOk currentTime order).returned = true := by
  intro order
  induction order with
  | nil =>
    rintro h ⟨k, hk, _⟩
    simp at hk
  | cons uid rest ih =>
    rintro h ⟨k, hk, c, hg, hstale, hfail⟩
    cases hgu : h.clients.get uid with
    | none =>
      have hne : k ≠ uid := by
        intro heq
        rw [heq, hgu] at hg
        exact Option.noConfusion hg
      have hkr : k ∈ rest := (List.mem_cons.mp hk).resolve_left hne
      simp only [heartbeatRange, hgu]
      exact ih h ⟨k, hkr, c, hg, hstale, hfail⟩
    | some client =>
      by_cases hs : 30 * Second ≤ Time.Sub currentTime (h.heap client).lastCommTime
      · by_cases hp : pingOk client = true
        · have hcne : c ≠ client := by
            intro heq
            rw [heq, hp] at hfail
            exact Bool.noConfusion hfail
          have hne : k ≠ uid := by
            intro heq
            rw [heq, hgu] at hg
            exact hcne (Option.some.inj hg).symm
          have hkr : k ∈ rest := (List.mem_cons.mp hk).resolve_left hne
          simp only [heartbeatRange, hgu, hs, not_true_eq_false, if_false, hp, if_true]
          apply ih
          refine ⟨k, hkr, c, hg, ?_, hfail⟩
          simpa [setLastCommTime, setConn, hcne] using hstale
        · simp [heartbeatRange, hgu, hs, hp]
      · have hcne : c ≠ client := by
          intro heq
          rw [heq] at hstale
          exact hs hstale
        have hne : k ≠ uid := by
          intro heq
          rw [heq, hgu] at hg
          exact hcne (Option.some.inj hg).symm
        have hkr : k ∈ rest := (List.mem_cons.mp hk).resolve_left hne
        simp only [heartbeatRange, hgu, hs, not_false_eq_true, if_true]
        exact ih h ⟨k, hkr, c, hg, hstale, hfail⟩

end Hub

/-- C6, evaluated. The clients 0 and 1 are registered under the uids 1 and 2,
both stale at the tick, and the probe of the client 0 fails. Ranging from
uid 1 to uid 2, the tick probes the client 0, sends it on `h.unregister`, and
`heartbeat` returns: the client 1, stale and registered, is not probed and
keeps its `lastCommTime`, on this tick and on the next one. -/
theorem heartbeat_stops_at_first_failed_probe :
    twoStaleHub.clients.get 2 = some 1 ∧
    30 * Second ≤ Time.Sub (60 * Second) (twoStaleHub.heap 1).lastCommTime ∧
    (twoStaleHub.heartbeatRange (fun c => decide (c ≠ 0)) (60 * Second) [1, 2]).returned
      = true ∧
    (twoStaleHub.heartbeatRange (fun c => decide (c ≠ 0)) (60 * Second) [1, 2]).sent = [0] ∧
    ((twoStaleHub.heartbeatRange (fun c => decide (c ≠ 0)) (60 * Second) [1, 2]).hub.heap
      0).conn.pings = 1 ∧
    ((twoStaleHub.heartbeatRange (fun c => decide (c ≠ 0)) (60 * Second) [1, 2]).hub.heap
      1).conn.pings = 0 ∧
    ((twoStaleHub.heartbeatRange (fun c => decide (c ≠ 0)) (60 * Second) [1, 2]).hub.heap
      1).lastCommTime = 0 ∧
    (twoStaleHub.heartbeat (fun c => decide (c ≠ 0))
      [(60 * Second, [1, 2]), (90 * Second, [1, 2])]).returned = true ∧
    ((twoStaleHub.heartbeat (fun c => decide (c ≠ 0))
      [(60 * Second, [1, 2]), (90 * Second, [1, 2])]).hub.heap 1).conn.pings = 0 := by
  decide

/-! ## Scenario C: a client that is never drained -/

namespace Hub

theorem broadcastLoop_of_empty (m : Message) :
    ∀ (order : List Int) (h : Hub), h.clients = [] → broadcastLoop m order h = .ok h := by
  intro order
  induction order with
  | nil => intro h _; rfl
  | cons uid rest ih =>
    intro h hcl
    have hg : h.clients.get uid = none := by rw [hcl]; rfl
    simp only [broadcastLoop, hg]
    exact ih h hcl

theorem run_broadcasts_of_empty :
    ∀ (ps : List (Message × List Int)) (h : Hub), h.clients = [] →
      h.run (ps.map (fun p => Op.broadcast p.1 p.2)) = .ok h := by
  intro ps
  induction ps with
  | nil => intro h _; rfl
  | cons p ps ih =>
    intro h hcl
    have hstep : h.step (Op.broadcast p.1 p.2) = .ok h := by
      simp only [step, broadcast]
      exact broadcastLoop_of_empty p.1 p.2 h hcl
    simp only [List.map_cons, run, hstep]
    exact ih h hcl

theorem run_broadcasts_single (k : Int) (r : Nat) :
    ∀ (ps : List (Message × List Int)) (h : Hub) (q : List Message),
      h.clients = [(k, r)] →
      (h.heap r).send = { cap := 256, buf := q, closed := false } →
      q.length ≤ 256 →
      h.rangesOk (ps.map (fun p => Op.broadcast p.1 p.2)) = true →
      ∃ h2, h.run (ps.map (fun p => Op.broadcast p.1 p.2)) = .ok h2 ∧
        (∀ p, p ≠ r → h2.heap p = h.heap p) ∧
        (q.length + ps.length ≤ 256 →
          h2.clients = [(k, r)] ∧
          (h2.heap r).send = { cap := 256, buf := q ++ ps.map Prod.fst, closed := false }) ∧
        (256 < q.length + ps.length →
          h2.clients = [] ∧
          (h2.heap r).send =
            { cap := 256, buf := (q ++ ps.map Prod.fst).take 256, closed := true }) := by
  intro ps
  induction ps with
  | nil =>
    intro h q hcl hsend hq _
    refine ⟨h, rfl, fun _ _ => rfl, ?_, ?_⟩
    · intro _
      exact ⟨hcl, by simpa using hsend⟩
    · intro hlt
      simp at hlt
      omega
  | cons p ps ih =>
    intro h q hcl hsend hq hok
    obtain ⟨m, order⟩ := p
    simp only [List.map_cons, rangesOk, Bool.and_eq_true] at hok
    have hperm : order.Perm [k] := by
      have := hok.1
      simp only [rangeOk, decide_eq_true_eq, hcl, Clients.keys, List.map_cons,
        List.map_nil] at this
      exact this
    have horder : order = [k] := List.perm_singleton.mp hperm
    subst horder
    have hg : h.clients.get k = some r := by rw [hcl]; simp [Clients.get]
    by_cases hroom : q.length < 256
    · -- the message is queued
      let ch : Chan := { cap := 256, buf := q ++ [m], closed := false }
      have hstep : h.step (Op.broadcast m [k]) = .ok (h.setSend r ch) := by
        simp [step, broadcast, broadcastLoop, hg, hsend, Chan.trySend, hroom, ch]
      have hok2 : (h.setSend r ch).rangesOk (ps.map (fun p => Op.broadcast p.1 p.2)) = true := by
        have := hok.2
        rw [hstep] at this
        exact this
      have hsend1 : ((h.setSend r ch).heap r).send = ch := by simp [setSend]
      obtain ⟨h2, hrun, hothers, hle, hgt⟩ := ih (h.setSend r ch) (q ++ [m]) hcl hsend1
        (by simp only [List.length_append, List.length_singleton]; omega) hok2
      refine ⟨h2, ?_, ?_, ?_, ?_⟩
      · simp only [List.map_cons, run, hstep]
        exact hrun
      · intro p hp
        rw [hothers p hp]
        simp [setSend, hp]
      · intro hlen
        have := hle (by simp at hlen ⊢; omega)
        simpa using this
      · intro hlen
        have := hgt (by simp at hlen ⊢; omega)
        simpa using this
    · -- the queue is full: the client is closed and deleted
      have hq256 : q.length = 256 := by omega
      let ch : Chan := { cap := 256, buf := q, closed := true }
      let h1 : Hub := { h.setSend r ch with clients := [] }
      have hdel : h.clients.delete k = [] := by rw [hcl]; simp [Clients.delete]
      have hstep : h.step (Op.broadcast m [k]) = .ok h1 := by
        simp [step, broadcast, broadcastLoop, hg, hsend, Chan.trySend, hroom, Chan.close,
          hdel, h1, ch]
      refine ⟨h1, ?_, ?_, ?_, ?_⟩
      · simp only [List.map_cons, run, hstep]
        exact run_broadcasts_of_empty ps h1 rfl
      · intro p hp
        simp [h1, setSend, hp]
      · intro hlen
        simp only [List.length_cons] at hlen
        omega
      · intro _
        refine ⟨rfl, ?_⟩
        have htake : (q ++ List.map Prod.fst ((m, [k]) :: ps)).take 256 = q := by
          rw [List.take_append_of_le_length (by omega)]
          exact List.take_of_length_le (by omega)
        rw [htake]
        simp [h1, setSend, ch]

end Hub

/-- C8, Scenario C. A client `r` newly made by `ServeWs` is registered on a
new hub and never drained; 300 messages are broadcast one after another, each
ranging in an order the runtime can choose. After the first `n` broadcasts,
for every `n ≤ 300`, the run has completed and: when `n ≤ 256`, `r` is the one
client of the map and its open queue holds the first `n` messages in order;
when `n ≥ 257`, the map is empty and the queue of `r` is closed and holds the
first 256 messages, so that the broadcasts 258 to 300 change neither. No other
client is touched. -/
theorem backpressure_eviction_threshold (heap : Nat → Client) (r : Nat)
    (ps : List (Message × List Int)) (n : Nat)
    (hnew : (heap r).send = Chan.make bufSize) (hlen : ps.length = 300) (hn : n ≤ 300)
    (hord : ((NewHub heap).register r).rangesOk
      ((ps.take n).map (fun p => Op.broadcast p.1 p.2)) = true) :
    ∃ h2, ((NewHub heap).register r).run
        ((ps.take n).map (fun p => Op.broadcast p.1 p.2)) = .ok h2 ∧
      (n ≤ 256 →
        h2.clients = [((heap r).uid, r)] ∧
        (h2.heap r).send =
          { cap := 256, buf := (ps.map Prod.fst).take n, closed := false }) ∧
      (257 ≤ n →
        h2.clients = [] ∧
        (h2.heap r).send =
          { cap := 256, buf := (ps.map Prod.fst).take 256, closed := true }) ∧
      (∀ p, p ≠ r → h2.heap p = heap p) := by
  have hcl : ((NewHub heap).register r).clients = [((heap r).uid, r)] := by
    simp [NewHub, Hub.register, Clients.set, Clients.delete]
  have hsend : (((NewHub heap).register r).heap r).send
      = { cap := 256, buf := [], closed := false } := hnew
  have hlt : (ps.take n).length = n := by
    rw [List.length_take]
    omega
  obtain ⟨h2, hrun, hothers, hle, hgt⟩ :=
    Hub.run_broadcasts_single (heap r).uid r (ps.take n) ((NewHub heap).register r) []
      hcl hsend (by simp) hord
  refine ⟨h2, hrun, ?_, ?_, hothers⟩
  · intro hn256
    have := hle (by simp only [List.length_nil, hlt]; omega)
    simpa [List.map_take] using this
  · intro hn257
    have := hgt (by simp only [List.length_nil, hlt]; omega)
    refine ⟨this.1, ?_⟩
    rw [this.2]
    simp only [List.nil_append, List.map_take, List.take_take]
    congr 2
    omega

/-! ## No send on a closed channel -/

namespace Hub

theorem wellFormed_register {h : Hub} (hwf : h.wellFormed) (c : Nat) :
    (h.register c).wellFormed := by
  constructor
  · have hnd : (h.clients.delete (h.heap c).uid).keys.Nodup :=
      Clients.keys_nodup_of_sublist (Clients.delete_sublist _ _) hwf.1
    have hnot : (h.heap c).uid ∉ (h.clients.delete (h.heap c).uid).keys := by
      intro hin
      obtain ⟨d, hd⟩ := Clients.mem_keys_iff_get.mp hin
      rw [Clients.get_delete_self] at hd
      exact Option.noConfusion hd
    exact List.nodup_cons.mpr ⟨hnot, hnd⟩
  · intro e he
    rcases List.mem_cons.mp he with heq | hin
    · rw [heq]; rfl
    · exact hwf.2 e ((Clients.delete_sublist _ _).subset hin)

theorem mem_delete {m : Clients} {k : Int} {e : Int × Nat} (he : e ∈ m.delete k) :
    e ∈ m ∧ e.1 ≠ k := by
  have := List.mem_filter.mp he
  exact ⟨this.1, by simpa using this.2⟩

/-- What a completed unregister leaves: the hub it found, or the hub without
the key and with the send channel of the client closed, which was open. -/
theorem unregister_ok {h h2 : Hub} {c : Nat} (hrun : h.unregister c = .ok h2) :
    (h.clients.get (h.heap c).uid = none ∧ h2 = h) ∨
    ((∃ d, h.clients.get (h.heap c).uid = some d) ∧ (h.heap c).send.closed = false ∧
      h2 = ({ h with clients := h.clients.delete (h.heap c).uid } : Hub).setSend c
        { (h.heap c).send with closed := true }) := by
  cases hg : h.clients.get (h.heap c).uid with
  | none =>
    left
    simp only [unregister, hg] at hrun
    exact ⟨rfl, (Outcome.ok.inj hrun).symm⟩
  | some d =>
    right
    cases hc : (h.heap c).send.closed with
    | true =>
      simp [unregister, hg, Chan.close, hc] at hrun
    | false =>
      simp only [unregister, hg, Chan.close, hc] at hrun
      exact ⟨⟨d, rfl⟩, rfl, (Outcome.ok.inj hrun).symm⟩

theorem sound_step {h h2 : Hub} {op : Op} (hs : h.sound) (hord : h.rangeOk op = true)
    (hnew : h.registersNew op = true) (hrun : h.step op = .ok h2) : h2.sound := by
  obtain ⟨hwf, hall⟩ := hs
  cases op with
  | register c =>
    have h2eq : h2 = h.register c := (Outcome.ok.inj hrun).symm
    subst h2eq
    have hfresh : (h.heap c).send = Chan.make bufSize := by
      simpa [registersNew] using hnew
    refine ⟨wellFormed_register hwf c, ?_⟩
    intro e he
    rcases List.mem_cons.mp he with heq | hin
    · have hh : (h.register c).heap e.2 = h.heap c := by rw [heq]; rfl
      rw [hh, hfresh]
      simp [Chan.make]
    · exact hall e ((Clients.delete_sublist _ _).subset hin)
  | unregister c =>
    rcases unregister_ok hrun with ⟨_, rfl⟩ | ⟨_, _, rfl⟩
    · exact ⟨hwf, hall⟩
    · have hne : ∀ e ∈ h.clients.delete (h.heap c).uid, e.2 ≠ c := by
        intro e he hec
        obtain ⟨he1, he2⟩ := mem_delete he
        apply he2
        rw [← hwf.2 e he1, hec]
      constructor
      · constructor
        · exact Clients.keys_nodup_of_sublist (Clients.delete_sublist _ _) hwf.1
        · intro e he
          have := hwf.2 e (mem_delete he).1
          simpa [setSend, hne e he] using this
      · intro e he
        have := hall e (mem_delete he).1
        simpa [setSend, hne e he] using this
  | broadcast m order =>
    have hperm : order.Perm h.clients.keys := by simpa [rangeOk] using hord
    have hopen : h.allOpen := fun e he => (hall e he).1
    obtain ⟨h3, hrun3, hsub, hget, hheap⟩ := broadcast_spec m hwf hopen hperm
    have h23 : h2 = h3 := by
      have : h.step (Op.broadcast m order) = .ok h3 := hrun3
      rw [hrun] at this
      exact Outcome.ok.inj this
    subst h23
    have hnd2 : h2.clients.keys.Nodup := Clients.keys_nodup_of_sublist hsub hwf.1
    have huid : ∀ p, (h2.heap p).uid = (h.heap p).uid := by
      intro p
      rw [hheap p]
      split <;> rfl
    constructor
    · exact ⟨hnd2, fun e he => by rw [huid]; exact hwf.2 e (hsub.subset he)⟩
    · intro e he
      have he1 : e ∈ h.clients := hsub.subset he
      have hg1 : h.clients.get e.1 = some e.2 := Clients.get_of_mem hwf.1 he1
      have hg2 : h2.clients.get e.1 = some e.2 := Clients.get_of_mem hnd2 he
      have hroom : h.hasRoom e.2 = true := by
        rw [hget e.1, hg1] at hg2
        by_cases hr : h.hasRoom e.2 = true
        · exact hr
        · simp [Option.filter, hr] at hg2
      have hroom2 : (h.heap e.2).send.buf.length < (h.heap e.2).send.cap := by
        simpa [hasRoom] using hroom
      obtain ⟨ho, hc, _⟩ := hall e he1
      rw [hheap e.2]
      have hu : (h.heap e.2).uid = e.1 := hwf.2 e he1
      simp only [hu, hg1, if_true, Chan.offer, hroom2]
      refine ⟨ho, hc, ?_⟩
      simp only [List.length_append, List.length_singleton]
      omega
  | sendMessage uid m =>
    cases hg : h.clients.get uid with
    | none =>
      have h2eq : h2 = h := by
        simp only [step, SendMessage, hg] at hrun
        exact (Outcome.ok.inj hrun).symm
      subst h2eq
      exact ⟨hwf, hall⟩
    | some c =>
      obtain ⟨ho, hc, _⟩ := hall (uid, c) (Clients.mem_of_get hg)
      have ho2 : (h.heap c).send.closed = false := ho
      by_cases hroom : (h.heap c).send.buf.length < (h.heap c).send.cap
      · have h2eq : h2 = h.setSend c
            { cap := (h.heap c).send.cap, buf := (h.heap c).send.buf ++ [m],
              closed := false } := by
          simp only [step, SendMessage, hg, Chan.send, ho2, hroom, if_true] at hrun
          exact (Outcome.ok.inj hrun).symm
        subst h2eq
        constructor
        · refine ⟨hwf.1, ?_⟩
          intro e he
          have := hwf.2 e he
          by_cases hec : e.2 = c
          · simp only [setSend, hec, if_true]
            rw [← hec]
            exact this
          · simpa [setSend, hec] using this
        · intro e he
          by_cases hec : e.2 = c
          · simp only [setSend, hec, if_true]
            have hc2 : (h.heap c).send.cap = bufSize := hc
            refine ⟨trivial, hc2, ?_⟩
            simp only [List.length_append, List.length_singleton]
            omega
          · have := hall e he
            simpa [setSend, hec] using this
      · simp [step, SendMessage, hg, Chan.send, ho2, hroom] at hrun

theorem sound_run :
    ∀ (ops : List Op) (h h2 : Hub), h.sound → h.rangesOk ops = true →
      h.registersNewAll ops = true → h.run ops = .ok h2 → h2.sound := by
  intro ops
  induction ops with
  | nil =>
    intro h h2 hs _ _ hrun
    rw [← Outcome.ok.inj hrun]
    exact hs
  | cons op ops ih =>
    intro h h2 hs hord hnew hrun
    simp only [rangesOk, Bool.and_eq_true] at hord
    simp only [registersNewAll, Bool.and_eq_true] at hnew
    cases hst : h.step op with
    | ok h1 =>
      simp only [run, hst] at hrun
      rw [hst] at hord hnew
      exact ih h1 h2 (sound_step hs hord.1 hnew.1 hst) hord.2 hnew.2 hrun
    | panic p => simp [run, hst] at hrun
    | blocked => simp [run, hst] at hrun

theorem sound_NewHub (heap : Nat → Client) : (NewHub heap).sound :=
  ⟨⟨List.nodup_nil, fun _ he => absurd he (List.not_mem_nil _)⟩,
    fun _ he => absurd he (List.not_mem_nil _)⟩

end Hub

/-- C10. In every state that a sequence of register, unregister, broadcast and
`SendMessage` operations, served one at a time from the new hub, arrives at,
where every client passed to a register is newly made by `ServeWs` (its send
channel open, empty, of capacity 256) and every broadcast ranges in an order
the runtime can choose: every client of the map has an open send channel
holding at most 256 messages; hence a broadcast served next completes, and a
`SendMessage` called next does not panic. That a client is registered at most
once is not needed. -/
theorem no_send_on_closed_queue (heap : Nat → Client) (ops : List Op) (h2 : Hub)
    (hord : (NewHub heap).rangesOk ops = true)
    (hnew : (NewHub heap).registersNewAll ops = true)
    (hrun : (NewHub heap).run ops = .ok h2) :
    (∀ k c, (k, c) ∈ h2.clients →
      (h2.heap c).send.closed = false ∧ (h2.heap c).send.buf.length ≤ 256) ∧
    (∀ m order, order.Perm h2.clients.keys → ∃ h3, h2.broadcast m order = .ok h3) ∧
    (∀ uid m p, h2.SendMessage uid m ≠ .panic p) := by
  have hs : h2.sound := Hub.sound_run ops (NewHub heap) h2 (Hub.sound_NewHub heap) hord hnew hrun
  refine ⟨?_, ?_, ?_⟩
  · intro k c he
    obtain ⟨ho, _, hl⟩ := hs.2 (k, c) he
    exact ⟨ho, hl⟩
  · intro m order hperm
    obtain ⟨h3, hrun3, _⟩ := Hub.broadcast_spec m hs.1 (fun e he => (hs.2 e he).1) hperm
    exact ⟨h3, hrun3⟩
  · intro uid m p hp
    cases hg : h2.clients.get uid with
    | none => simp [Hub.SendMessage, hg] at hp
    | some c =>
      have ho : (h2.heap c).send.closed = false := (hs.2 (uid, c) (Clients.mem_of_get hg)).1
      by_cases hroom : (h2.heap c).send.buf.length < (h2.heap c).send.cap
      · simp [Hub.SendMessage, hg, Chan.send, ho, hroom] at hp
      · simp [Hub.SendMessage, hg, Chan.send, ho, hroom] at hp

/-! ## Clients that left the map -/

namespace Hub

theorem present_iff_get {h : Hub} (hwf : h.wellFormed) (p : Nat) :
    h.present p ↔ h.clients.get (h.heap p).uid = some p := by
  constructor
  · rintro ⟨e, he, rfl⟩
    rw [hwf.2 e he]
    exact Clients.get_of_mem hwf.1 he
  · intro hg
    exact ⟨_, Clients.mem_of_get hg, rfl⟩

theorem mem_delete_of_ne {m : Clients} {k : Int} {e : Int × Nat} (he : e ∈ m)
    (hne : e.1 ≠ k) : e ∈ m.delete k :=
  List.mem_filter.mpr ⟨he, by simpa using hne⟩

theorem settled_register {reg sup : List Nat} {h : Hub} (hs : h.settled reg sup) {c : Nat}
    (hopen : (h.heap c).send.closed = false) :
    (h.register c).settled (reg ++ [c]) (sup ++ h.supersededBy (.register c)) := by
  obtain ⟨hwf, hent, hreg⟩ := hs
  have hwf1 : (h.register c).wellFormed := wellFormed_register hwf c
  refine ⟨hwf1, ?_, ?_⟩
  · intro e he
    rcases List.mem_cons.mp he with heq | hin
    · rw [heq]
      exact ⟨by simp, hopen⟩
    · obtain ⟨h1, h2⟩ := hent e ((Clients.delete_sublist _ _).subset hin)
      exact ⟨List.mem_append_left _ h1, h2⟩
  · intro p hp hnp
    rw [present_iff_get hwf1] at hnp
    have hnp2 : ¬ (h.register c).clients.get (h.heap p).uid = some p := hnp
    by_cases hpc : p = c
    · rw [hpc] at hnp2
      exact absurd (Clients.get_set_self _ _ _) hnp2
    · have hpr : p ∈ reg := by
        rcases List.mem_append.mp hp with h1 | h1
        · exact h1
        · exact absurd (List.mem_singleton.mp h1) hpc
      by_cases hpres : h.present p
      · have hg : h.clients.get (h.heap p).uid = some p := (present_iff_get hwf p).mp hpres
        by_cases hu : (h.heap p).uid = (h.heap c).uid
        · right
          apply List.mem_append_right
          rw [hu] at hg
          simp [supersededBy, hg, hpc]
        · exfalso
          apply hnp2
          have hsame : (h.register c).clients.get (h.heap p).uid
              = h.clients.get (h.heap p).uid := Clients.get_set_ne h.clients c hu
          rw [hsame]
          exact hg
      · rcases hreg p hpr hpres with h1 | h1
        · left
          exact h1
        · right
          exact List.mem_append_left _ h1

theorem shelved_register {reg sup : List Nat} {h : Hub} (hs : h.settled reg sup)
    (hsh : h.shelved reg sup) {c : Nat} (hc : c ∉ reg) :
    (h.register c).shelved (reg ++ [c]) (sup ++ h.supersededBy (.register c)) := by
  obtain ⟨hwf, hent, _⟩ := hs
  intro p hp
  rcases List.mem_append.mp hp with h1 | h1
  · obtain ⟨hpr, hnp, ho⟩ := hsh p h1
    refine ⟨List.mem_append_left _ hpr, ?_, ho⟩
    rintro ⟨e, he, hep⟩
    rcases List.mem_cons.mp he with heq | hin
    · have hpc : p = c := by rw [← hep, heq]
      apply hc
      rw [← hpc]
      exact hpr
    · exact hnp ⟨e, (Clients.delete_sublist _ _).subset hin, hep⟩
  · cases hg : h.clients.get (h.heap c).uid with
    | none => simp [supersededBy, hg] at h1
    | some old =>
      by_cases hoc : old = c
      · simp [supersededBy, hg, hoc] at h1
      · have hpo : p = old := by simpa [supersededBy, hg, hoc] using h1
        rw [hpo]
        obtain ⟨hpr, ho⟩ := hent _ (Clients.mem_of_get hg)
        refine ⟨List.mem_append_left _ hpr, ?_, ho⟩
        rintro ⟨e, he, hep⟩
        rcases List.mem_cons.mp he with heq | hin
        · apply hoc
          rw [← hep, heq]
        · obtain ⟨he1, he2⟩ := mem_delete hin
          apply he2
          rw [← hwf.2 e he1, hep]
          exact uid_of_get hwf hg

theorem settled_unregister {reg sup : List Nat} {h : Hub} (hs : h.settled reg sup) {c : Nat}
    (hown : h.unregistersOwn (.unregister c) = true) :
    ∃ h2, h.unregister c = .ok h2 ∧ h2.settled reg sup ∧
      (h.shelved reg sup → h2.shelved reg sup) := by
  obtain ⟨hwf, hent, hreg⟩ := hs
  cases hg0 : h.clients.get (h.heap c).uid with
  | none =>
    exact ⟨h, by simp only [unregister, hg0], ⟨hwf, hent, hreg⟩, id⟩
  | some d =>
    have hdc : d = c := by simpa [unregistersOwn, hg0] using hown
    have hg : h.clients.get (h.heap c).uid = some c := by rw [hg0, hdc]
    obtain ⟨_, hopen⟩ := hent _ (Clients.mem_of_get hg)
    have hopen2 : (h.heap c).send.closed = false := hopen
    let h1 : Hub := ({ h with clients := h.clients.delete (h.heap c).uid } : Hub).setSend c
      { (h.heap c).send with closed := true }
    have hrun : h.unregister c = .ok h1 := by
      simp only [unregister, hg, Chan.close, hopen2]
      rfl
    have hne : ∀ e ∈ h.clients.delete (h.heap c).uid, e.2 ≠ c := by
      intro e he hec
      obtain ⟨he1, he2⟩ := mem_delete he
      apply he2
      rw [← hwf.2 e he1, hec]
    have hwf1 : h1.wellFormed := by
      constructor
      · exact Clients.keys_nodup_of_sublist (Clients.delete_sublist _ _) hwf.1
      · intro e he
        have := hwf.2 e (mem_delete he).1
        simpa [h1, setSend, hne e he] using this
    refine ⟨h1, hrun, ⟨hwf1, ?_, ?_⟩, ?_⟩
    · intro e he
      have := hent e (mem_delete he).1
      simpa [h1, setSend, hne e he] using this
    · intro p hp hnp
      by_cases hpc : p = c
      · left
        rw [hpc]
        simp [h1, setSend]
      · by_cases hpres : h.present p
        · exfalso
          have hgp : h.clients.get (h.heap p).uid = some p :=
            (present_iff_get hwf p).mp hpres
          have hu : (h.heap p).uid ≠ (h.heap c).uid := by
            intro hu
            rw [hu, hg] at hgp
            exact hpc (Option.some.inj hgp).symm
          apply hnp
          have hmem : ((h.heap p).uid, p) ∈ h.clients.delete (h.heap c).uid :=
            mem_delete_of_ne (Clients.mem_of_get hgp) hu
          exact ⟨((h.heap p).uid, p), hmem, rfl⟩
        · rcases hreg p hp hpres with h2 | h2
          · left
            simpa [h1, setSend, hpc] using h2
          · right
            exact h2
    · intro hsh p hp
      obtain ⟨hpr, hnp, ho⟩ := hsh p hp
      have hpc : p ≠ c := by
        intro heq
        apply hnp
        exact ⟨((h.heap c).uid, c), Clients.mem_of_get hg, heq.symm⟩
      refine ⟨hpr, ?_, by simpa [h1, setSend, hpc] using ho⟩
      rintro ⟨e, he, hep⟩
      exact hnp ⟨e, (mem_delete he).1, hep⟩

theorem settled_broadcast {reg sup : List Nat} {h : Hub} (hs : h.settled reg sup)
    (m : Message) {order : List Int} (hperm : order.Perm h.clients.keys) :
    ∃ h2, h.broadcast m order = .ok h2 ∧ h2.settled reg sup ∧
      (h.shelved reg sup → h2.shelved reg sup) := by
  obtain ⟨hwf, hent, hreg⟩ := hs
  have hopen : h.allOpen := fun e he => (hent e he).2
  obtain ⟨h2, hrun, hsub, hget, hheap⟩ := broadcast_spec m hwf hopen hperm
  have hnd2 : h2.clients.keys.Nodup := Clients.keys_nodup_of_sublist hsub hwf.1
  have huid2 : ∀ p, (h2.heap p).uid = (h.heap p).uid := by
    intro p
    rw [hheap p]
    split <;> rfl
  have hwf2 : h2.wellFormed :=
    ⟨hnd2, fun e he => by rw [huid2]; exact hwf.2 e (hsub.subset he)⟩
  refine ⟨h2, hrun, ⟨hwf2, ?_, ?_⟩, ?_⟩
  · intro e he
    have he1 : e ∈ h.clients := hsub.subset he
    have hg1 : h.clients.get e.1 = some e.2 := Clients.get_of_mem hwf.1 he1
    have hg2 : h2.clients.get e.1 = some e.2 := Clients.get_of_mem hnd2 he
    have hroom : h.hasRoom e.2 = true := by
      rw [hget e.1, hg1] at hg2
      by_cases hr : h.hasRoom e.2 = true
      · exact hr
      · simp [Option.filter, hr] at hg2
    have hroom2 : (h.heap e.2).send.buf.length < (h.heap e.2).send.cap := by
      simpa [hasRoom] using hroom
    obtain ⟨hr1, ho⟩ := hent e he1
    refine ⟨hr1, ?_⟩
    rw [hheap e.2]
    have hu : (h.heap e.2).uid = e.1 := hwf.2 e he1
    simp only [hu, hg1, if_true, Chan.offer, hroom2]
    exact ho
  · intro p hp hnp
    rw [present_iff_get hwf2, huid2, hget] at hnp
    by_cases hg : h.clients.get (h.heap p).uid = some p
    · have hr : ¬ h.hasRoom p = true := by
        intro hr
        apply hnp
        rw [hg]
        simp [Option.filter, hr]
      have hroom2 : ¬ (h.heap p).send.buf.length < (h.heap p).send.cap := by
        simpa [hasRoom] using hr
      left
      rw [hheap p]
      simp [hg, Chan.offer, hroom2]
    · have hnp1 : ¬ h.present p := by
        rw [present_iff_get hwf]
        exact hg
      rw [hheap p]
      simp only [hg, if_false]
      exact hreg p hp hnp1
  · intro hsh p hp
    obtain ⟨hpr, hnp, ho⟩ := hsh p hp
    have hg : ¬ h.clients.get (h.heap p).uid = some p := by
      rw [← present_iff_get hwf]
      exact hnp
    refine ⟨hpr, ?_, ?_⟩
    · rintro ⟨e, he, hep⟩
      exact hnp ⟨e, hsub.subset he, hep⟩
    · rw [hheap p]
      simp only [hg, if_false]
      exact ho

theorem settled_run :
    ∀ (ops : List Op) (reg sup : List Nat) (h : Hub), h.settled reg sup →
      (∀ op ∈ ops, isIntent op = true) → h.rangesOk ops = true →
      h.registersNewAll ops = true → h.unregistersOwnAll ops = true →
      ∃ h2, h.run ops = .ok h2 ∧
        h2.settled (reg ++ registered ops) (sup ++ h.superseded ops) ∧
        ((registered ops).Nodup → (∀ p ∈ registered ops, p ∉ reg) → h.shelved reg sup →
          h2.shelved (reg ++ registered ops) (sup ++ h.superseded ops)) := by
  intro ops
  induction ops with
  | nil =>
    intro reg sup h hs _ _ _ _
    exact ⟨h, rfl, by simpa [registered, superseded] using hs,
      fun _ _ hsh => by simpa [registered, superseded] using hsh⟩
  | cons op ops ih =>
    intro reg sup h hs hint hord hnew hown
    simp only [rangesOk, Bool.and_eq_true] at hord
    simp only [registersNewAll, Bool.and_eq_true] at hnew
    simp only [unregistersOwnAll, Bool.and_eq_true] at hown
    have hint2 : ∀ o ∈ ops, isIntent o = true :=
      fun o ho => hint o (List.mem_cons_of_mem _ ho)
    cases op with
    | register c =>
      have hst : h.step (Op.register c) = .ok (h.register c) := rfl
      rw [hst] at hord hnew hown
      have hfresh : (h.heap c).send = Chan.make bufSize := by
        simpa [registersNew] using hnew.1
      have hopen : (h.heap c).send.closed = false := by
        rw [hfresh]
        rfl
      obtain ⟨h2, hrun, hs2, hsh2⟩ := ih (reg ++ [c]) (sup ++ h.supersededBy (.register c))
        (h.register c) (settled_register hs hopen) hint2 hord.2 hnew.2 hown.2
      have e1 : reg ++ registered (Op.register c :: ops) = (reg ++ [c]) ++ registered ops := by
        simp [registered]
      have e2 : sup ++ h.superseded (Op.register c :: ops)
          = (sup ++ h.supersededBy (.register c)) ++ (h.register c).superseded ops := by
        simp only [superseded, hst, List.append_assoc]
      refine ⟨h2, by simp only [run, hst]; exact hrun, ?_, ?_⟩
      · rw [e1, e2]
        exact hs2
      · intro hnd hfr hsh
        simp only [registered, List.nodup_cons] at hnd
        have hc : c ∉ reg := hfr c (by simp [registered])
        rw [e1, e2]
        apply hsh2 hnd.2
        · intro p hp hin
          rcases List.mem_append.mp hin with h1 | h1
          · exact hfr p (by simp [registered, hp]) h1
          · rw [List.mem_singleton.mp h1] at hp
            exact hnd.1 hp
        · exact shelved_register hs hsh hc
    | unregister c =>
      obtain ⟨h1, hst1, hs1, hsh1⟩ := settled_unregister hs hown.1
      have hst : h.step (Op.unregister c) = .ok h1 := hst1
      rw [hst] at hord hnew hown
      obtain ⟨h2, hrun, hs2, hsh2⟩ := ih reg sup h1 hs1 hint2 hord.2 hnew.2 hown.2
      have e2 : sup ++ h.superseded (Op.unregister c :: ops) = sup ++ h1.superseded ops := by
        simp [superseded, supersededBy, hst]
      refine ⟨h2, by simp only [run, hst]; exact hrun, ?_, ?_⟩
      · rw [e2]
        exact hs2
      · intro hnd hfr hsh
        rw [e2]
        exact hsh2 hnd hfr (hsh1 hsh)
    | broadcast m order =>
      have hperm : order.Perm h.clients.keys := by simpa [rangeOk] using hord.1
      obtain ⟨h1, hst1, hs1, hsh1⟩ := settled_broadcast hs m hperm
      have hst : h.step (Op.broadcast m order) = .ok h1 := hst1
      rw [hst] at hord hnew hown
      obtain ⟨h2, hrun, hs2, hsh2⟩ := ih reg sup h1 hs1 hint2 hord.2 hnew.2 hown.2
      have e2 : sup ++ h.superseded (Op.broadcast m order :: ops)
          = sup ++ h1.superseded ops := by
        simp [superseded, supersededBy, hst]
      refine ⟨h2, by simp only [run, hst]; exact hrun, ?_, ?_⟩
      · rw [e2]
        exact hs2
      · intro hnd hfr hsh
        rw [e2]
        exact hsh2 hnd hfr (hsh1 hsh)
    | sendMessage uid m =>
      have := hint (Op.sendMessage uid m) (List.mem_cons_self _ _)
      simp [isIntent] at this

end Hub

/-- C3, as amended. Every client passed to a register is newly made by
`ServeWs`, with an open empty send channel, and no unregister is served for a
client while its uid is the key of another client. Then every sequence of
register, unregister and broadcast intents, served one at a time from the new
hub with every broadcast ranging in an order the runtime can choose, completes
without a panic, so no channel is closed twice; and in the state it arrives
at, every client that has been registered and is no longer in the map has a
closed send channel, unless the register of another client under its uid
replaced it in the map; every client in the map has an open send channel; and
when each client is registered at most once, every client that a register
replaced is a registered client that is not in the map and whose send channel
is open, closed zero times. -/
theorem absent_client_closed_once (heap : Nat → Client) (ops : List Op)
    (hint : ∀ op ∈ ops, Hub.isIntent op = true)
    (hord : (NewHub heap).rangesOk ops = true)
    (hnew : (NewHub heap).registersNewAll ops = true)
    (hown : (NewHub heap).unregistersOwnAll ops = true) :
    ∃ h2, (NewHub heap).run ops = .ok h2 ∧
      (∀ p ∈ Hub.registered ops, ¬ h2.present p →
        (h2.heap p).send.closed = true ∨ p ∈ (NewHub heap).superseded ops) ∧
      (∀ p, h2.present p → (h2.heap p).send.closed = false) ∧
      ((Hub.registered ops).Nodup → ∀ p ∈ (NewHub heap).superseded ops,
        p ∈ Hub.registered ops ∧ ¬ h2.present p ∧ (h2.heap p).send.closed = false) := by
  have hs0 : (NewHub heap).settled [] [] :=
    ⟨⟨List.nodup_nil, fun _ he => absurd he (List.not_mem_nil _)⟩,
      fun _ he => absurd he (List.not_mem_nil _),
      fun _ hp => absurd hp (List.not_mem_nil _)⟩
  have hsh0 : (NewHub heap).shelved [] [] :=
    fun _ hp => absurd hp (List.not_mem_nil _)
  obtain ⟨h2, hrun, hs2, hsh2⟩ :=
    Hub.settled_run ops [] [] (NewHub heap) hs0 hint hord hnew hown
  simp only [List.nil_append] at hs2 hsh2
  refine ⟨h2, hrun, hs2.2.2, ?_, ?_⟩
  · rintro p ⟨e, he, rfl⟩
    exact (hs2.2.1 e he).2
  · intro hnd p hp
    exact hsh2 hnd (fun _ _ hin => absurd hin (List.not_mem_nil _)) hsh0 p hp

/-! ## The theorems at concrete inputs -/

/-- C3 fails as stated. All clients are newly made by `ServeWs` for the one
uid 2, each is registered once, and every register passes a client with an
open empty send channel. After register 0, register 1, the client 0 has been
registered, is no longer in the map, and its send channel is open, closed zero
times: the register case replaces an entry without a close. After register 0,
unregister 0, register 1, unregister 0, the second unregister of the client 0
finds its uid in the map, as the key of the client 1, and closes the channel
of the client 0 again: a close of a closed channel. After register 0,
register 1, unregister 0, the unregister of the client 0 deletes the entry of
the client 1, which is then out of the map with an open channel. -/
theorem absent_client_open_or_closed_twice :
    (∀ p, (heapAllTwo p).send = Chan.make bufSize) ∧
    (NewHub heapAllTwo).registersNewAll [.register 0, .register 1] = true ∧
    (NewHub heapAllTwo).run [.register 0, .register 1]
      = .ok (((NewHub heapAllTwo).register 0).register 1) ∧
    0 ∈ Hub.registered [.register 0, .register 1] ∧
    ¬ (((NewHub heapAllTwo).register 0).register 1).present 0 ∧
    ((((NewHub heapAllTwo).register 0).register 1).heap 0).send.closed = false ∧
    (NewHub heapAllTwo).registersNewAll
      [.register 0, .unregister 0, .register 1, .unregister 0] = true ∧
    (Hub.registered [.register 0, .unregister 0, .register 1, .unregister 0]).Nodup ∧
    (NewHub heapAllTwo).run [.register 0, .unregister 0, .register 1, .unregister 0]
      = .panic .closeOfClosedChannel ∧
    (∃ h2, (NewHub heapAllTwo).run [.register 0, .register 1, .unregister 0] = .ok h2 ∧
      ¬ h2.present 1 ∧ (h2.heap 1).send.closed = false ∧
      1 ∉ (NewHub heapAllTwo).superseded [.register 0, .register 1, .unregister 0]) :=
  ⟨fun _ => rfl, by decide, rfl, by decide, by unfold Hub.present; decide, by decide,
    by decide, by decide, rfl,
    ⟨_, rfl, by unfold Hub.present; decide, by decide, by decide⟩⟩

/-- C3 as amended, on three clients of the one uid 2: a client that comes back
on a free uid, and a client that a register replaces. -/
theorem absent_client_closed_once_witness :
    (∀ op ∈ reconnectIntents, Hub.isIntent op = true) ∧
    (NewHub heapAllTwo).rangesOk reconnectIntents = true ∧
    (NewHub heapAllTwo).registersNewAll reconnectIntents = true ∧
    (NewHub heapAllTwo).unregistersOwnAll reconnectIntents = true ∧
    (Hub.registered reconnectIntents).Nodup ∧
    (NewHub heapAllTwo).superseded reconnectIntents = [1] ∧
    ∃ h2, (NewHub heapAllTwo).run reconnectIntents = .ok h2 ∧
      (∀ p ∈ Hub.registered reconnectIntents, ¬ h2.present p →
        (h2.heap p).send.closed = true ∨ p ∈ (NewHub heapAllTwo).superseded reconnectIntents) ∧
      (∀ p, h2.present p → (h2.heap p).send.closed = false) ∧
      ((Hub.registered reconnectIntents).Nodup →
        ∀ p ∈ (NewHub heapAllTwo).superseded reconnectIntents,
          p ∈ Hub.registered reconnectIntents ∧ ¬ h2.present p ∧
            (h2.heap p).send.closed = false) :=
  ⟨by decide, by decide, by decide, by decide, by decide, by decide,
    absent_client_closed_once heapAllTwo reconnectIntents
      (by decide) (by decide) (by decide) (by decide)⟩

/-- C8 on the 300 messages of `scenarioC`, all of them broadcast, to the
client of uid 1. -/
theorem backpressure_eviction_threshold_witness :
    (heapById 1).send = Chan.make bufSize ∧ scenarioC.length = 300 ∧ 300 ≤ 300 ∧
    ((NewHub heapById).register 1).rangesOk
      ((scenarioC.take 300).map (fun p => Op.broadcast p.1 p.2)) = true ∧
    ∃ h2, ((NewHub heapById).register 1).run
        ((scenarioC.take 300).map (fun p => Op.broadcast p.1 p.2)) = .ok h2 ∧
      (300 ≤ 256 →
        h2.clients = [((heapById 1).uid, 1)] ∧
        (h2.heap 1).send =
          { cap := 256, buf := (scenarioC.map Prod.fst).take 300, closed := false }) ∧
      (257 ≤ 300 →
        h2.clients = [] ∧
        (h2.heap 1).send =
          { cap := 256, buf := (scenarioC.map Prod.fst).take 256, closed := true }) ∧
      (∀ p, p ≠ 1 → h2.heap p = heapById p) :=
  have hnew : (heapById 1).send = Chan.make bufSize := rfl
  have hlen : scenarioC.length = 300 := by simp [scenarioC]
  have hord : ((NewHub heapById).register 1).rangesOk
      ((scenarioC.take 300).map (fun p => Op.broadcast p.1 p.2)) = true := by
    set_option maxRecDepth 100000 in decide
  ⟨hnew, hlen, le_refl _, hord,
    backpressure_eviction_threshold heapById 1 scenarioC 300 hnew hlen (le_refl _) hord⟩

/-- C10 on two clients of uids 0 and 1. -/
theorem no_send_on_closed_queue_witness :
    (NewHub heapById).rangesOk twoClientOps = true ∧
    (NewHub heapById).registersNewAll twoClientOps = true ∧
    ∃ h2, (NewHub heapById).run twoClientOps = .ok h2 ∧
      (∀ k c, (k, c) ∈ h2.clients →
        (h2.heap c).send.closed = false ∧ (h2.heap c).send.buf.length ≤ 256) ∧
      (∀ m order, order.Perm h2.clients.keys → ∃ h3, h2.broadcast m order = .ok h3) ∧
      (∀ uid m p, h2.SendMessage uid m ≠ .panic p) :=
  ⟨by decide, by decide, _, rfl,
    no_send_on_closed_queue heapById twoClientOps _ (by decide) (by decide) rfl⟩

end ChatDemo
